import Mathlib

/-!
# Verification of the pychebfun core (`pychebfun/chebfun.py`)

A shallow embedding of the numerical core of the pychebfun library, together
with theorems settling the specification claims about it.

Modelling conventions:
* Double-precision floating-point numbers are modelled as exact real numbers;
  numpy arrays are modelled as `List ℝ` (the library's complex-valued support
  is not exercised by any claim, so samples and coefficients are real, and the
  `np.isrealobj` branches of the source are the ones embedded).
* `scipy.fftpack.fft`/`ifft` are external collaborators of the source; they are
  embedded by their defining formulas (discrete Fourier transform sums).
* `numpy.polynomial.chebyshev.chebint` and `scipy.linalg.toeplitz` are likewise
  embedded by their documented formulas.
* numpy's `IndexError` on an out-of-bounds element assignment is modelled by
  `Option`-valued update helpers (`setChecked`, `matSetChecked`).
* Exceptions raised by the library itself (`NoConvergence`, `DomainMismatch`,
  `ValueError`) are modelled by `Except FunError` return types, with the
  exception arguments carried in the `FunError` payloads.
* Real-number definitions are necessarily `noncomputable` in Lean; concrete
  evaluations in witnesses are carried out through simp/norm_num lemmas.
-/

namespace Pychebfun

/-- Machine epsilon of IEEE-754 double precision (`sys.float_info.epsilon`). -/
noncomputable def emach : ℝ := 1 / 2 ^ 52

/-- The complex exponential `exp(2 π i r / M)`: the `r`-th power of the
primitive `M`-th root of unity used by the discrete Fourier transform. -/
noncomputable def expk (M : ℕ) (r : ℤ) : ℂ := Complex.exp (2 * Real.pi * Complex.I * r / M)

/-- `scipy.fftpack.fft`: the (unnormalised) discrete Fourier transform,
`X_j = Σ_k x_k e^(-2 π i j k / M)`. -/
noncomputable def fft (l : List ℂ) : List ℂ :=
  List.ofFn fun j : Fin l.length =>
    ∑ k ∈ Finset.range l.length, l.getD k 0 * expk l.length (-((j : ℕ) * k : ℕ))

/-- `scipy.fftpack.ifft`: the inverse discrete Fourier transform,
`x_j = (1/M) Σ_k X_k e^(2 π i j k / M)`. -/
noncomputable def ifft (l : List ℂ) : List ℂ :=
  List.ofFn fun j : Fin l.length =>
    (∑ k ∈ Finset.range l.length, l.getD k 0 * expk l.length ((j : ℕ) * k)) / (l.length : ℂ)

/-- The forward-kernel sum `Σ_k w_k e^(-2 π i j k / M)` appearing as the `j`-th
entry of `fft w` (an analysis helper). -/
noncomputable def dftS (w : List ℂ) (j : ℕ) : ℂ :=
  ∑ k ∈ Finset.range w.length, w.getD k 0 * expk w.length (-((j : ℤ) * (k : ℤ)))

/-- The backward-kernel sum `Σ_k w_k e^(2 π i j k / M)` appearing (normalised)
as the `j`-th entry of `ifft w` (an analysis helper). -/
noncomputable def dftV (w : List ℂ) (j : ℕ) : ℂ :=
  ∑ k ∈ Finset.range w.length, w.getD k 0 * expk w.length ((j : ℤ) * (k : ℤ))

/-- In-place update `l[i] = f(l[i])` of a numpy array (the index is in range at
every use site in the source). -/
def mapAt {α : Type*} [Zero α] (l : List α) (i : ℕ) (f : α → α) : List α :=
  l.set i (f (l.getD i 0))

/-- `even_data`: the extended data vector `[x_0, ..., x_{N-1}, x_{N-2}, ..., x_1]`
(an even extension of the original data, length `2(N-1)`). -/
def even_data {α : Type*} (data : List α) : List α :=
  data ++ (data.drop 1).dropLast.reverse

/-- `dct`: compute the DCT using the FFT, as in the source: keep the first
`N+1` FFT outputs (`N = len(data)//2`), divide by `N`, and halve the first and
last entries. -/
noncomputable def dct (data : List ℂ) : List ℂ :=
  let N := data.length / 2
  let fftdata := ((fft data).take (N + 1)).map (· / (N : ℂ))
  mapAt (mapAt fftdata 0 (· / 2)) (fftdata.length - 1) (· / 2)

/-- `Chebfun.chebpolyfit`: Chebyshev coefficients of values located on
Chebyshev points (real-data branch of the source). -/
noncomputable def chebpolyfit (sampled : List ℝ) : List ℝ :=
  if sampled.length = 1 then sampled
  else (dct (even_data (sampled.map Complex.ofReal))).map Complex.re

/-- The data vector prepared inside `Chebfun.chebpolyval`: the even extension
of the coefficients divided by two, with the entries `0` and `N-1` restored
(`data[0] *= 2; data[N-1] *= 2`). -/
noncomputable def cheb_data (chebcoeff : List ℝ) : List ℂ :=
  mapAt (mapAt ((even_data (chebcoeff.map Complex.ofReal)).map (· / 2)) 0 (· * 2))
    (chebcoeff.length - 1) (· * 2)

/-- `Chebfun.chebpolyval`: interpolation values at Chebyshev points from
Chebyshev coefficients (real-data branch of the source). -/
noncomputable def chebpolyval (chebcoeff : List ℝ) : List ℝ :=
  let N := chebcoeff.length
  if N = 1 then chebcoeff
  else
    (((ifft (cheb_data chebcoeff)).map (· * (2 * ((N : ℂ) - 1)))).take N).map Complex.re

/-- `Fun._threshold`: the trimming threshold `128 * emach * vscale`. -/
noncomputable def threshold (vscale : ℝ) : ℝ := 128 * emach * vscale

open Classical in
/-- `Fun._cutoff`: one past the last index whose coefficient magnitude reaches
the threshold (`1` when there is none). -/
noncomputable def cutoff (coeffs : List ℝ) (vscale : ℝ) : ℕ :=
  let bnd := threshold vscale
  let inds := (List.range coeffs.length).filter fun i => decide (bnd ≤ |coeffs.getD i 0|)
  match inds.getLast? with
  | some i => i + 1
  | none => 1

/-- `np.max(np.abs(l))` for the (nonempty) arrays the source applies it to. -/
noncomputable def maxAbs (l : List ℝ) : ℝ := (l.map fun x => |x|).foldr max 0

/-- The `Fun` object: interpolation values, domain `[a, b]`, and the `vscale`
used for tolerance decisions. -/
structure Fun where
  values : List ℝ
  domain : ℝ × ℝ
  vscale : ℝ

/-- `Fun.__init__`: when no `vscale` is supplied it is computed as the maximum
magnitude of the values. -/
noncomputable def Fun.make (values : List ℝ) (domain : ℝ × ℝ) (vscale : Option ℝ) : Fun :=
  ⟨values, domain, vscale.getD (maxAbs values)⟩

/-- `Fun.from_data`: initialise from interpolation values. -/
noncomputable def Fun.from_data (data : List ℝ) (domain : ℝ × ℝ) : Fun :=
  Fun.make data domain none

/-- `Fun.size`: the number of interpolation points. -/
def Fun.size (self : Fun) : ℕ := self.values.length

/-- `Fun.from_chebcoeff`: initialise from Chebyshev coefficients, optionally
pruning them at `cutoff` (the source's default pruning scale is `vscale = 1`). -/
noncomputable def Fun.from_chebcoeff (chebcoeff : List ℝ) (domain : ℝ × ℝ) (prune : Bool)
    (vscale : ℝ) : Fun :=
  let pruned := if prune then chebcoeff.take (cutoff chebcoeff vscale) else chebcoeff
  Fun.make (chebpolyval pruned) domain (some vscale)

/-- `Chebfun.interpolation_points`: `N` Chebyshev points `cos(k π / (N-1))` in
`[-1, 1]`, boundaries included; a single point `0` for `N = 1`. -/
noncomputable def interpolation_points (N : ℕ) : List ℝ :=
  if N = 1 then [0]
  else List.ofFn fun k : Fin N => Real.cos (k * Real.pi / ((N : ℝ) - 1))

/-- `Chebfun.sample_function`: sample a function on `N+1` Chebyshev points. -/
noncomputable def sample_function (f : ℝ → ℝ) (N : ℕ) : List ℝ :=
  (interpolation_points (N + 1)).map f

/-- `Fun.chebyshev_coefficients`. -/
noncomputable def Fun.chebyshev_coefficients (self : Fun) : List ℝ :=
  chebpolyfit self.values

/-- Exceptions raised by the library, with the arguments they carry. -/
inductive FunError
  | noConvergence : List ℝ → ℝ → FunError
  | domainMismatch : ℝ × ℝ → ℝ × ℝ → FunError
  | valueError : List ℝ → FunError

/-- The coefficient vector computed by one `Fun.dichotomy` iteration at
exponent `k`: fit the function sampled at `2^k + 1` Chebyshev points. -/
noncomputable def dichotomy_coeffs (f : ℝ → ℝ) (k : ℕ) : List ℝ :=
  chebpolyfit (sample_function f (2 ^ k))

/-- The bound `bnd = _threshold(max |coeffs|)` of one dichotomy iteration. -/
noncomputable def dichotomy_bnd (f : ℝ → ℝ) (k : ℕ) : ℝ :=
  threshold (maxAbs (dichotomy_coeffs f k))

/-- The tail magnitudes `last = abs(coeffs[-2:])` of one dichotomy iteration. -/
noncomputable def dichotomy_last (f : ℝ → ℝ) (k : ℕ) : List ℝ :=
  ((dichotomy_coeffs f k).drop ((dichotomy_coeffs f k).length - 2)).map fun x => |x|

/-- The acceptance test `np.all(last <= bnd)` of one dichotomy iteration. -/
def tailOK (f : ℝ → ℝ) (k : ℕ) : Prop :=
  ∀ x ∈ dichotomy_last f k, x ≤ dichotomy_bnd f k

open Classical in
/-- One pass of the `Fun.dichotomy` loop, with `fuel` iterations remaining
(`fuel = kmax - k`); mirrors the source loop body: sample at `2^k + 1` points,
fit, and accept when the last two coefficient magnitudes are below threshold,
otherwise raise `NoConvergence(last, bnd)` (or return the last fit) once the
range is exhausted. -/
noncomputable def dichotomyGo (f : ℝ → ℝ) (raiseNC : Bool) (fuel k : ℕ) :
    Except (List ℝ × ℝ) (List ℝ) :=
  if tailOK f k then .ok (dichotomy_coeffs f k)
  else
    match fuel with
    | 0 => if raiseNC then .error (dichotomy_last f k, dichotomy_bnd f k)
           else .ok (dichotomy_coeffs f k)
    | 1 => if raiseNC then .error (dichotomy_last f k, dichotomy_bnd f k)
           else .ok (dichotomy_coeffs f k)
    | fuel' + 2 => dichotomyGo f raiseNC (fuel' + 1) (k + 1)

/-- `Fun.dichotomy(f, kmin, kmax, raise_no_convergence)`; meaningful for
`kmin < kmax` (an empty Python loop range would leave the loop variables
unbound and raise `NameError`, a case no claim exercises). -/
noncomputable def dichotomy (f : ℝ → ℝ) (kmin kmax : ℕ) (raiseNC : Bool) :
    Except (List ℝ × ℝ) (List ℝ) :=
  dichotomyGo f raiseNC (kmax - kmin) kmin

/-- `same_domain`: `np.allclose(fun1.domain(), fun2.domain(), rtol=1e-14, atol=1e-14)`,
i.e. elementwise `|x - y| <= atol + rtol*|y|`. -/
def sameDomain (fun1 fun2 : Fun) : Prop :=
  |fun1.domain.1 - fun2.domain.1| ≤ 1e-14 + 1e-14 * |fun2.domain.1| ∧
  |fun1.domain.2 - fun2.domain.2| ≤ 1e-14 + 1e-14 * |fun2.domain.2|

/-- `Fun.__neg__`: negate the values (vscale is recomputed by `from_data`). -/
noncomputable def Fun.neg (self : Fun) : Fun :=
  Fun.from_data (self.values.map fun x => -x) self.domain

open Classical in
/-- `Fun.__add__` between two `Fun`s: check the domains, pad the Chebyshev
coefficients of the smaller one with zeros, add, and rebuild with the max of
the two vscales. -/
noncomputable def Fun.add (self other : Fun) : Except FunError Fun :=
  if ¬ sameDomain self other then .error (.domainMismatch self.domain other.domain)
  else
    let diff : ℤ := (other.size : ℤ) - (self.size : ℤ)
    let big := if 0 < diff then other else self
    let small := if 0 < diff then self else other
    let small_coeffs := chebpolyfit small.values
    let big_coeffs := chebpolyfit big.values
    let padded := small_coeffs ++ List.replicate (big_coeffs.length - small_coeffs.length) 0
    let chebsum := List.zipWith (· + ·) big_coeffs padded
    let new_vscale := max self.vscale other.vscale
    .ok (Fun.from_chebcoeff chebsum self.domain true new_vscale)

/-- `Fun.__sub__` between two `Fun`s: `self + (-other)`. -/
noncomputable def Fun.sub (self other : Fun) : Except FunError Fun :=
  Fun.add self (Fun.neg other)

/-- `Fun.__nonzero__`: the values are not `np.allclose` to `0`
(elementwise `|v| <= 1e-08 + 1e-05 * 0`). -/
def Fun.nonzero (self : Fun) : Prop :=
  ¬ ∀ v ∈ self.values, |v| ≤ 1e-08

/-- `Fun.__eq__`: the truth-test of `self - other`, negated; the subtraction
(and hence the domain check) happens before any boolean is produced. -/
noncomputable def Fun.eq (self other : Fun) : Except FunError Prop :=
  (Fun.sub self other).map fun d => ¬ Fun.nonzero d

/-- The `[-1,1] → [a,b]` affine map `t ↦ 0.5(b-a)t + 0.5(a+b)`. -/
noncomputable def ui_to_ab (domain : ℝ × ℝ) (t : ℝ) : ℝ :=
  0.5 * (domain.2 - domain.1) * t + 0.5 * (domain.1 + domain.2)

/-- The `[a,b] → [-1,1]` affine map `x ↦ (2x - a - b)/(b - a)`. -/
noncomputable def ab_to_ui (domain : ℝ × ℝ) (x : ℝ) : ℝ :=
  (2 * x - domain.1 - domain.2) / (domain.2 - domain.1)

/-- `Chebfun.interpolator`: the precomputed barycentric weights
(`ones`, then `w[0] = .5`, then `w[1::2] = -1`, then `w[-1] *= .5`). -/
noncomputable def bary_weights (N : ℕ) : List ℝ :=
  let w1 := List.replicate N (1 : ℝ)
  let w2 := w1.set 0 (1 / 2)
  let w3 := List.ofFn fun i : Fin N => if i.1 % 2 = 1 then -1 else w2.getD i.1 0
  mapAt w3 (N - 1) (· * (1 / 2))

open Classical in
/-- Barycentric evaluation as performed by `scipy.interpolate.BarycentricInterpolator`:
a query point that coincides with a node returns the stored value; otherwise the
barycentric quotient formula is used. -/
noncomputable def bary_eval (xi wi yi : List ℝ) (t : ℝ) : ℝ :=
  if t ∈ xi then yi.getD (xi.indexOf t) 0
  else
    (∑ k ∈ Finset.range xi.length, wi.getD k 0 * yi.getD k 0 / (t - xi.getD k 0)) /
      (∑ k ∈ Finset.range xi.length, wi.getD k 0 / (t - xi.getD k 0))

/-- `Fun.__call__`: map into `[-1,1]` and evaluate the barycentric interpolant. -/
noncomputable def Fun.eval (self : Fun) (x : ℝ) : ℝ :=
  bary_eval (interpolation_points self.size) (bary_weights self.size) self.values
    (ab_to_ui self.domain x)

/-- `Fun.from_function`: rescale `f` to the unit domain and run the dichotomy
(bracketed around `N` without a convergence requirement when `N` is given). -/
noncomputable def Fun.from_function (f : ℝ → ℝ) (domain : ℝ × ℝ) (N : Option ℕ) :
    Except FunError Fun :=
  let a := domain.1
  let b := domain.2
  let g := fun t => f (0.5 * (b - a) * t + 0.5 * (a + b))
  let args : ℕ × ℕ × Bool :=
    match N with
    | some n => (Nat.log 2 n + 1, Nat.log 2 n + 2, false)
    | none => (2, 12, true)
  match dichotomy g args.1 args.2.1 args.2.2 with
  | .error e => .error (.noConvergence e.1 e.2)
  | .ok coeffs => .ok (Fun.from_chebcoeff coeffs domain true 1)

open Classical in
/-- The binary operations `*`, `/`, `**` installed by `_add_operator`: check
the domains, then resample the pointwise combination and refit adaptively. -/
noncomputable def resample_binop (op : ℝ → ℝ → ℝ) (self other : Fun) : Except FunError Fun :=
  if ¬ sameDomain self other then .error (.domainMismatch self.domain other.domain)
  else Fun.from_function (fun x => op (Fun.eval self x) (Fun.eval other x)) self.domain none

/-- `Fun.restrict`: re-sample `self` on a sub-domain, erroring (with the
offending bounds) on a degenerate or non-nested sub-interval. -/
noncomputable def Fun.restrict (self : Fun) (subinterval : ℝ × ℝ) : Except FunError Fun :=
  if subinterval.1 ≥ subinterval.2 then .error (.valueError [subinterval.1, subinterval.2])
  else if subinterval.1 < self.domain.1 then .error (.valueError [subinterval.1, self.domain.1])
  else if subinterval.2 > self.domain.2 then .error (.valueError [subinterval.2, self.domain.2])
  else Fun.from_function (Fun.eval self) subinterval none

/-- `numpy.polynomial.chebyshev.chebval(0, c)`: the Chebyshev series evaluated
at `0`, using `T_i(0) = 0` for odd `i` and `(-1)^(i/2)` for even `i`. -/
noncomputable def chebval_at_zero (c : List ℝ) : ℝ :=
  ∑ i ∈ Finset.range c.length, c.getD i 0 * (if i % 2 = 1 then 0 else (-1) ^ (i / 2))

open Classical in
/-- `numpy.polynomial.chebyshev.chebint(c)` (one integration, zero constant):
the antiderivative coefficient recurrence, with the constant term adjusted so
that the antiderivative vanishes at `0`. -/
noncomputable def chebint (c : List ℝ) : List ℝ :=
  if c.length = 1 ∧ c.getD 0 0 = 0 then c
  else
    let n := c.length
    let tmp := List.ofFn fun i : Fin (n + 1) =>
      if i.1 = 0 then 0
      else if i.1 = 1 then c.getD 0 0 - c.getD 2 0 / 2
      else c.getD (i.1 - 1) 0 / (2 * (i.1 : ℝ)) - c.getD (i.1 + 1) 0 / (2 * (i.1 : ℝ))
    mapAt tmp 0 fun x => x - chebval_at_zero tmp

/-- The antiderivative `Fun` built inside `Chebfun.integrate` (before the
left-endpoint normalisation): prune-and-rebuild from
`0.5 * (b - a) * chebint(coeffs)` with the default pruning scale `1`. -/
noncomputable def integrate_antiderivative (f : Fun) : Fun :=
  let coeffs := chebpolyfit f.values
  let a := f.domain.1
  let b := f.domain.2
  let int_coeffs := (chebint coeffs).map fun x => 0.5 * (b - a) * x
  Fun.from_chebcoeff int_coeffs f.domain true 1

/-- `Chebfun.integrate`: the antiderivative minus (as a scalar cast to a
constant `Fun`, as done by `cast_scalar`) its value at the left endpoint. -/
noncomputable def integrate (f : Fun) : Except FunError Fun :=
  let antiderivative := integrate_antiderivative f
  Fun.sub antiderivative
    (Fun.make [Fun.eval antiderivative f.domain.1] antiderivative.domain none)

/-- The coefficient vector formed inside the subtraction step of
`Chebfun.integrate`, before the final pruning: the antiderivative's Chebyshev
coefficients with the scalar `antiderivative(a)` subtracted from the constant
term via zero-padding (an analysis helper naming a value `integrate` computes). -/
noncomputable def integrate_chebsum (f : Fun) : List ℝ :=
  let big_coeffs := chebpolyfit (integrate_antiderivative f).values
  List.zipWith (· + ·) big_coeffs
    ([-(Fun.eval (integrate_antiderivative f) f.domain.1)]
      ++ List.replicate (big_coeffs.length - 1) 0)

/-- The vscale used for the final pruning inside `Chebfun.integrate`
(an analysis helper naming a value `integrate` computes). -/
noncomputable def integrate_new_vscale (f : Fun) : ℝ :=
  max (integrate_antiderivative f).vscale |Fun.eval (integrate_antiderivative f) f.domain.1|

/-- `Chebfun.identity`: the `Fun` for `x ↦ x`, from the data `[b, a]`. -/
noncomputable def identity (domain : ℝ × ℝ) : Fun :=
  Fun.from_data [domain.2, domain.1] domain

/-- `Chebfun.basis(n)`: the Chebyshev basis polynomial `T_n` on the default
domain, from the values `ones(n+1)` with `vals[1::2] = -1`. -/
noncomputable def basis (n : ℕ) : Fun :=
  if n = 0 then Fun.make [1] (-1, 1) none
  else
    Fun.make (List.ofFn fun k : Fin (n + 1) => if k.1 % 2 = 1 then (-1 : ℝ) else 1)
      (-1, 1) none

/-- A numpy element assignment `l[i] = a`, which raises `IndexError` (here:
`none`) when the index is out of bounds. -/
def setChecked {α : Type*} (l : List α) (i : ℕ) (a : α) : Option (List α) :=
  if i < l.length then some (l.set i a) else none

/-- A numpy matrix element assignment `M[i, j] = a` with bounds checking. -/
def matSetChecked {n : ℕ} (M : Matrix (Fin n) (Fin n) ℝ) (i j : ℕ) (a : ℝ) :
    Option (Matrix (Fin n) (Fin n) ℝ) :=
  if i < n ∧ j < n then some (fun r s => if (r : ℕ) = i ∧ (s : ℕ) = j then a else M r s)
  else none

open Classical in
/-- The `self.size() <= 100` branch of `Chebfun.roots`: build the colleague
matrix (`v = zeros_like(ak[:-1]); v[1] = 0.5; C1 = toeplitz(v); C1[0,1] = 1;
C2[-1,:] = ak[:-1]; C = C1 - .5/ak[-1] * C2`), take the eigenvalues (the
eigenvalue solver `scipy.linalg.eigvals` is an external collaborator, kept
abstract as `eig`), filter the near-real ones inside `[-1, 1]`, map them to the
domain and sort. `none` models a numpy `IndexError` during the construction. -/
noncomputable def roots_low (eig : (m : ℕ) → Matrix (Fin m) (Fin m) ℝ → List ℂ) (f : Fun) :
    Option (List ℝ) :=
  let ak := chebpolyfit f.values
  let m := ak.dropLast.length
  match setChecked (List.replicate m (0 : ℝ)) 1 (1 / 2) with
  | none => none
  | some v =>
    let C1 : Matrix (Fin m) (Fin m) ℝ := fun i j => v.getD ((i : ℤ) - (j : ℤ)).natAbs 0
    match matSetChecked C1 0 1 1 with
    | none => none
    | some C1' =>
      let C2 : Matrix (Fin m) (Fin m) ℝ := fun i j => if (i : ℕ) = m - 1 then ak.getD j 0 else 0
      let C := C1' - (0.5 / ak.getD (ak.length - 1) 0) • C2
      let eigenvalues := eig m C
      some ((((eigenvalues.filter fun z => decide (|z.im| ≤ 1e-10 ∧ |z.re| ≤ 1)).map
        fun z => ui_to_ab f.domain z.re).mergeSort (· ≤ ·)))

/-! ## Lemmas about the discrete Fourier kernel -/

theorem expk_zero (M : ℕ) : expk M 0 = 1 := by
  simp [expk]

theorem expk_add (M : ℕ) (a b : ℤ) : expk M (a + b) = expk M a * expk M b := by
  rw [expk, expk, expk, ← Complex.exp_add]
  congr 1
  push_cast
  ring

theorem expk_pow (M : ℕ) (r : ℤ) (j : ℕ) : expk M r ^ j = expk M (j * r) := by
  induction j with
  | zero => simp [expk_zero]
  | succ j ih =>
      rw [pow_succ, ih]
      rw [← expk_add]
      congr 1
      push_cast
      ring

theorem expk_int_mul (M : ℕ) (t : ℤ) : expk M ((M : ℤ) * t) = 1 := by
  rcases Nat.eq_zero_or_pos M with hM | hM
  · simp [expk, hM]
  · rw [expk]
    have hMc : (M : ℂ) ≠ 0 := Nat.cast_ne_zero.mpr hM.ne'
    have : 2 * (Real.pi : ℂ) * Complex.I * ((M : ℤ) * t : ℤ) / (M : ℂ)
        = (t : ℂ) * (2 * (Real.pi : ℂ) * Complex.I) := by
      push_cast
      field_simp
      ring
    rw [this, Complex.exp_int_mul_two_pi_mul_I]

theorem expk_periodic (M : ℕ) (r t : ℤ) : expk M (r + (M : ℤ) * t) = expk M r := by
  rw [expk_add, expk_int_mul, mul_one]

theorem expk_ne_one (M : ℕ) (hM : 1 ≤ M) (r : ℤ) (h : ¬ ((M : ℤ) ∣ r)) : expk M r ≠ 1 := by
  intro hone
  apply h
  rw [expk, Complex.exp_eq_one_iff] at hone
  obtain ⟨k, hk⟩ := hone
  have hMc : (M : ℂ) ≠ 0 := Nat.cast_ne_zero.mpr (by omega)
  have hpi : (2 * (Real.pi : ℂ) * Complex.I) ≠ 0 := by
    simp [Real.pi_ne_zero, Complex.I_ne_zero]
  have hk2 : (2 * (Real.pi : ℂ) * Complex.I) * (r : ℂ)
      = (2 * (Real.pi : ℂ) * Complex.I) * ((k : ℂ) * (M : ℂ)) := by
    field_simp at hk
    linear_combination hk
  have hc : (r : ℂ) = (k : ℂ) * (M : ℂ) := mul_left_cancel₀ hpi hk2
  have hz : (r : ℤ) = k * M := by exact_mod_cast hc
  exact ⟨k, by rw [hz]; ring⟩

theorem conj_expk (M : ℕ) (r : ℤ) : (starRingEnd ℂ) (expk M r) = expk M (-r) := by
  rw [expk, expk, ← Complex.exp_conj]
  congr 1
  simp only [map_div₀, map_mul, map_ofNat, Complex.conj_I, Complex.conj_ofReal,
    map_intCast, map_natCast]
  push_cast
  ring

theorem sum_expk (M : ℕ) (hM : 1 ≤ M) (r : ℤ) :
    ∑ j ∈ Finset.range M, expk M ((j : ℤ) * r) = if (M : ℤ) ∣ r then (M : ℂ) else 0 := by
  by_cases hdvd : (M : ℤ) ∣ r
  · rw [if_pos hdvd]
    obtain ⟨s, hs⟩ := hdvd
    have h1 : ∀ j ∈ Finset.range M, expk M ((j : ℤ) * r) = 1 := by
      intro j _
      rw [hs, show (j : ℤ) * ((M : ℤ) * s) = (M : ℤ) * ((j : ℤ) * s) by ring, expk_int_mul]
    rw [Finset.sum_congr rfl h1]
    simp
  · rw [if_neg hdvd]
    have hne : expk M r ≠ 1 := expk_ne_one M hM r hdvd
    have h1 : ∀ j ∈ Finset.range M, expk M ((j : ℤ) * r) = expk M r ^ j := fun j _ => by
      rw [expk_pow]
    rw [Finset.sum_congr rfl h1, geom_sum_eq hne, expk_pow, expk_int_mul]
    simp

/-! ## Elementary lemmas about the list combinators -/

theorem mapAt_length {α : Type*} [Zero α] (l : List α) (i : ℕ) (f : α → α) :
    (mapAt l i f).length = l.length := by
  simp [mapAt]

theorem mapAt_getD_same {α : Type*} [Zero α] (l : List α) (i : ℕ) (f : α → α)
    (h : i < l.length) : (mapAt l i f).getD i 0 = f (l.getD i 0) := by
  rw [mapAt, List.getD_eq_getElem _ _ (by simpa using h), List.getElem_set_self,
    List.getD_eq_getElem _ _ h]

theorem mapAt_getD_ne {α : Type*} [Zero α] (l : List α) (i j : ℕ) (f : α → α)
    (h : j ≠ i) : (mapAt l i f).getD j 0 = l.getD j 0 := by
  rcases Nat.lt_or_ge j l.length with hj | hj
  · rw [mapAt, List.getD_eq_getElem _ _ (by simpa using hj), List.getElem_set_ne (by omega),
      List.getD_eq_getElem _ _ hj]
  · have h1 : (mapAt l i f).length ≤ j := by rw [mapAt_length]; exact hj
    rw [List.getD_eq_default _ _ h1, List.getD_eq_default _ _ hj]

theorem getD_map_zero {α β : Type*} [Zero α] [Zero β] (f : α → β) (hf : f 0 = 0)
    (l : List α) (k : ℕ) : (l.map f).getD k 0 = f (l.getD k 0) := by
  rcases Nat.lt_or_ge k l.length with hk | hk
  · rw [List.getD_eq_getElem _ _ (by simpa using hk), List.getElem_map,
      List.getD_eq_getElem _ _ hk]
  · rw [List.getD_eq_default _ _ (by simpa using hk), List.getD_eq_default _ _ hk, hf]

theorem even_data_length {α : Type*} (v : List α) (n : ℕ) (hv : v.length = n + 1)
    (hn : 1 ≤ n) : (even_data v).length = 2 * n := by
  simp [even_data, hv]
  omega

theorem even_data_getD_low {α : Type*} [Zero α] (v : List α) (s : ℕ) (hs : s < v.length) :
    (even_data v).getD s 0 = v.getD s 0 := by
  rw [even_data, List.getD_eq_getElem _ _ (by simp; omega),
    List.getElem_append_left hs, List.getD_eq_getElem _ _ hs]

theorem even_data_getD_high {α : Type*} [Zero α] (v : List α) (n : ℕ) (hv : v.length = n + 1)
    (s : ℕ) (hs1 : n + 1 ≤ s) (hs2 : s < 2 * n) :
    (even_data v).getD s 0 = v.getD (2 * n - s) 0 := by
  rw [even_data, List.getD_eq_getElem _ _ (by simp [hv]; omega),
    List.getElem_append_right (by rw [hv]; omega), List.getElem_reverse,
    List.getElem_dropLast, List.getElem_drop,
    List.getD_eq_getElem _ _ (show 2 * n - s < v.length by rw [hv]; omega)]
  congr 1
  simp only [List.length_dropLast, List.length_drop, hv]
  omega

/-- Symmetry of the even extension: `w_(2n - s) = w_s` for `1 ≤ s ≤ 2n - 1`. -/
theorem even_data_symm {α : Type*} [Zero α] (v : List α) (n : ℕ) (hv : v.length = n + 1)
    (hn : 1 ≤ n) (s : ℕ) (hs1 : 1 ≤ s) (hs2 : s < 2 * n) :
    (even_data v).getD (2 * n - s) 0 = (even_data v).getD s 0 := by
  rcases Nat.lt_or_ge s (n + 1) with hlow | hhigh
  · -- `s ≤ n`, so `2n - s ≥ n`; in the mirrored half unless `s = n`
    rcases Nat.eq_or_lt_of_le (Nat.le_of_lt_succ hlow) with heq | hlt
    · subst heq
      have : 2 * s - s = s := by omega
      rw [this]
    · rw [even_data_getD_high v n hv (2 * n - s) (by omega) (by omega),
        even_data_getD_low v s (by omega)]
      congr 1
      omega
  · rw [even_data_getD_low v (2 * n - s) (by omega),
      even_data_getD_high v n hv s (by omega) hs2]

/-! ## The discrete Fourier transform and its inverse -/

theorem fft_length (l : List ℂ) : (fft l).length = l.length := by simp [fft]

theorem ifft_length (l : List ℂ) : (ifft l).length = l.length := by simp [ifft]

theorem fft_getD (l : List ℂ) (j : ℕ) (hj : j < l.length) :
    (fft l).getD j 0 = dftS l j := by
  rw [fft, List.getD_eq_getElem _ _ (by simpa using hj), List.getElem_ofFn, dftS]
  apply Finset.sum_congr rfl
  intro k _
  congr 2

theorem ifft_getD (l : List ℂ) (j : ℕ) (hj : j < l.length) :
    (ifft l).getD j 0 = dftV l j / (l.length : ℂ) := by
  rw [ifft, List.getD_eq_getElem _ _ (by simpa using hj), List.getElem_ofFn, dftV]

/-- Flipping the sign of the kernel in a sum against a symmetric data vector. -/
theorem sum_flip (w : List ℂ) (M : ℕ)
    (hsym : ∀ s, 1 ≤ s → s < M → w.getD (M - s) 0 = w.getD s 0) (j : ℕ) :
    ∑ k ∈ Finset.range M, w.getD k 0 * expk M ((j : ℤ) * (k : ℤ))
      = ∑ k ∈ Finset.range M, w.getD k 0 * expk M (-((j : ℤ) * (k : ℤ))) := by
  rcases Nat.eq_zero_or_pos M with hM | hM
  · simp [hM]
  obtain ⟨M', rfl⟩ : ∃ M', M = M' + 1 := ⟨M - 1, by omega⟩
  rw [Finset.sum_range_succ', Finset.sum_range_succ']
  congr 1
  rw [← Finset.sum_range_reflect]
  apply Finset.sum_congr rfl
  intro i hi
  have hi' : i < M' := Finset.mem_range.mp hi
  have hidx : M' - 1 - i + 1 = (M' + 1) - (i + 1) := by omega
  rw [hidx, hsym (i + 1) (by omega) (by omega)]
  congr 1
  rw [show (j : ℤ) * (((M' + 1) - (i + 1) : ℕ) : ℤ)
      = -((j : ℤ) * (((i + 1) : ℕ) : ℤ)) + (((M' + 1) : ℕ) : ℤ) * (j : ℤ) by
    push_cast [Nat.cast_sub (by omega : i ≤ M')]
    ring]
  rw [expk_periodic]

/-- The inverse DFT inverts the forward DFT:
`Σ_j (Σ_k w_k e^(-2πijk/M)) e^(2πijm/M) = M w_m`. -/
theorem dft_inversion (w : List ℂ) (M : ℕ) (hw : w.length = M) (hM : 1 ≤ M)
    (m : ℕ) (hm : m < M) :
    ∑ j ∈ Finset.range M, dftS w j * expk M ((j : ℤ) * (m : ℤ)) = (M : ℂ) * w.getD m 0 := by
  have step : ∀ j ∈ Finset.range M, dftS w j * expk M ((j : ℤ) * (m : ℤ))
      = ∑ k ∈ Finset.range M, w.getD k 0 * expk M ((j : ℤ) * ((m : ℤ) - (k : ℤ))) := by
    intro j _
    rw [dftS, hw, Finset.sum_mul]
    apply Finset.sum_congr rfl
    intro k _
    rw [mul_assoc, ← expk_add]
    congr 2
    ring
  rw [Finset.sum_congr rfl step, Finset.sum_comm]
  have inner : ∀ k ∈ Finset.range M,
      ∑ j ∈ Finset.range M, w.getD k 0 * expk M ((j : ℤ) * ((m : ℤ) - (k : ℤ)))
        = w.getD k 0 * (if (M : ℤ) ∣ ((m : ℤ) - (k : ℤ)) then (M : ℂ) else 0) := by
    intro k _
    rw [← Finset.mul_sum, sum_expk M hM]
  rw [Finset.sum_congr rfl inner]
  have dvd_iff : ∀ k ∈ Finset.range M, ((M : ℤ) ∣ ((m : ℤ) - (k : ℤ))) ↔ k = m := by
    intro k hk
    have hkM : k < M := Finset.mem_range.mp hk
    constructor
    · intro hdvd
      have habs : |(m : ℤ) - (k : ℤ)| < (M : ℤ) := by
        rw [abs_lt]; omega
      have := Int.eq_zero_of_abs_lt_dvd hdvd habs
      omega
    · rintro rfl
      simp
  have rewr : ∀ k ∈ Finset.range M,
      w.getD k 0 * (if (M : ℤ) ∣ ((m : ℤ) - (k : ℤ)) then (M : ℂ) else 0)
        = if k = m then w.getD k 0 * (M : ℂ) else 0 := by
    intro k hk
    rcases (dvd_iff k hk) with ⟨h1, h2⟩
    by_cases hkm : k = m
    · rw [if_pos (h2 hkm), if_pos hkm]
    · rw [if_neg (fun hd => hkm (h1 hd)), if_neg hkm, mul_zero]
  rw [Finset.sum_congr rfl rewr, Finset.sum_ite_eq' (Finset.range M) m
    (fun k => w.getD k 0 * (M : ℂ)), if_pos (Finset.mem_range.mpr hm)]
  ring

/-- The forward DFT inverts the (unnormalised) inverse DFT:
`Σ_j (Σ_k w_k e^(2πijk/M)) e^(-2πijm/M) = M w_m`. -/
theorem dft_inversion_rev (w : List ℂ) (M : ℕ) (hw : w.length = M) (hM : 1 ≤ M)
    (m : ℕ) (hm : m < M) :
    ∑ j ∈ Finset.range M, dftV w j * expk M (-((j : ℤ) * (m : ℤ))) = (M : ℂ) * w.getD m 0 := by
  have step : ∀ j ∈ Finset.range M, dftV w j * expk M (-((j : ℤ) * (m : ℤ)))
      = ∑ k ∈ Finset.range M, w.getD k 0 * expk M ((j : ℤ) * ((k : ℤ) - (m : ℤ))) := by
    intro j _
    rw [dftV, hw, Finset.sum_mul]
    apply Finset.sum_congr rfl
    intro k _
    rw [mul_assoc, ← expk_add]
    congr 2
    ring
  rw [Finset.sum_congr rfl step, Finset.sum_comm]
  have inner : ∀ k ∈ Finset.range M,
      ∑ j ∈ Finset.range M, w.getD k 0 * expk M ((j : ℤ) * ((k : ℤ) - (m : ℤ)))
        = w.getD k 0 * (if (M : ℤ) ∣ ((k : ℤ) - (m : ℤ)) then (M : ℂ) else 0) := by
    intro k _
    rw [← Finset.mul_sum, sum_expk M hM]
  rw [Finset.sum_congr rfl inner]
  have rewr : ∀ k ∈ Finset.range M,
      w.getD k 0 * (if (M : ℤ) ∣ ((k : ℤ) - (m : ℤ)) then (M : ℂ) else 0)
        = if k = m then w.getD k 0 * (M : ℂ) else 0 := by
    intro k hk
    have hkM : k < M := Finset.mem_range.mp hk
    by_cases hkm : k = m
    · rw [if_pos (by rw [hkm]; simp), if_pos hkm]
    · rw [if_neg ?_, if_neg hkm, mul_zero]
      intro hdvd
      have habs : |(k : ℤ) - (m : ℤ)| < (M : ℤ) := by
        rw [abs_lt]; omega
      have := Int.eq_zero_of_abs_lt_dvd hdvd habs
      omega
  rw [Finset.sum_congr rfl rewr, Finset.sum_ite_eq' (Finset.range M) m
    (fun k => w.getD k 0 * (M : ℂ)), if_pos (Finset.mem_range.mpr hm)]
  ring

/-! ## The transform layer: lengths and entry formulas -/

theorem even_data_map {α β : Type*} (f : α → β) (l : List α) :
    even_data (l.map f) = (even_data l).map f := by
  simp [even_data, List.map_drop, List.map_dropLast, List.map_reverse]

theorem even_data_length_raw {α : Type*} (v : List α) :
    (even_data v).length = v.length + (v.length - 2) := by
  simp [even_data]
  omega

theorem dct_length (w : List ℂ) : (dct w).length = min (w.length / 2 + 1) w.length := by
  simp [dct, mapAt_length, fft_length]

theorem chebpolyfit_length (v : List ℝ) : (chebpolyfit v).length = v.length := by
  rw [chebpolyfit]
  by_cases h1 : v.length = 1
  · rw [if_pos h1]
  · rw [if_neg h1, List.length_map, dct_length, even_data_length_raw, List.length_map]
    omega

theorem cheb_data_length (c : List ℝ) : (cheb_data c).length = c.length + (c.length - 2) := by
  rw [cheb_data, mapAt_length, mapAt_length, List.length_map, even_data_length_raw,
    List.length_map]

theorem chebpolyval_length (c : List ℝ) : (chebpolyval c).length = c.length := by
  rw [chebpolyval]
  by_cases h1 : c.length = 1
  · rw [if_pos h1]
  · rw [if_neg h1, List.length_map, List.length_take, List.length_map, ifft_length,
      cheb_data_length]
    omega

/-- Entry formula for `dct` on a vector of even length `2n`. -/
theorem dct_getD (w : List ℂ) (n : ℕ) (hw : w.length = 2 * n) (hn : 1 ≤ n)
    (j : ℕ) (hj : j ≤ n) :
    (dct w).getD j 0 = dftS w j / (n : ℂ) / (if j = 0 ∨ j = n then 2 else 1) := by
  have hN : w.length / 2 = n := by omega
  have hfl : (fft w).length = 2 * n := by rw [fft_length, hw]
  have htl : ((fft w).take (n + 1)).length = n + 1 := by
    rw [List.length_take, hfl]
    omega
  have hml : (((fft w).take (n + 1)).map (· / (n : ℂ))).length = n + 1 := by
    rw [List.length_map, htl]
  have hbase : ∀ i ≤ n, (((fft w).take (n + 1)).map (· / (n : ℂ))).getD i 0
      = dftS w i / (n : ℂ) := by
    intro i hi
    rw [getD_map_zero _ (by simp) _ i]
    congr 1
    rw [List.getD_eq_getElem _ _ (by rw [htl]; omega), List.getElem_take,
      ← List.getD_eq_getElem (fft w) _ (by rw [hfl]; omega), fft_getD w i (by rw [hw]; omega)]
  rw [dct]
  simp only [hN, hml, Nat.add_sub_cancel]
  rcases eq_or_ne j 0 with hj0 | hj0
  · rw [if_pos (Or.inl hj0), hj0, mapAt_getD_ne _ _ _ _ (by omega),
      mapAt_getD_same _ _ _ (by rw [hml]; omega), hbase 0 (by omega)]
  rcases eq_or_ne j n with hjn | hjn
  · rw [if_pos (Or.inr hjn), hjn,
      mapAt_getD_same _ _ _ (by rw [mapAt_length, hml]; omega),
      mapAt_getD_ne _ _ _ _ (by omega), hbase n (le_refl n)]
  · rw [if_neg (show ¬ (j = 0 ∨ j = n) by tauto), mapAt_getD_ne _ _ _ _ hjn,
      mapAt_getD_ne _ _ _ _ hj0, hbase j hj, div_one]

/-- Entry formula for `chebpolyfit` on `n+1` values, `n ≥ 1`. -/
theorem chebpolyfit_getD (v : List ℝ) (n : ℕ) (hv : v.length = n + 1) (hn : 1 ≤ n)
    (j : ℕ) (hj : j ≤ n) :
    (chebpolyfit v).getD j 0
      = (dftS (even_data (v.map Complex.ofReal)) j / (n : ℂ)
          / (if j = 0 ∨ j = n then 2 else 1)).re := by
  have hw : (even_data (v.map Complex.ofReal)).length = 2 * n := by
    rw [even_data_length_raw, List.length_map, hv]
    omega
  rw [chebpolyfit, if_neg (by omega), getD_map_zero _ (by simp) _ j,
    dct_getD _ n hw hn j hj]

/-- Entry formula for `chebpolyval` on `n+1` coefficients, `n ≥ 1`. -/
theorem chebpolyval_getD (c : List ℝ) (n : ℕ) (hc : c.length = n + 1) (hn : 1 ≤ n)
    (j : ℕ) (hj : j ≤ n) :
    (chebpolyval c).getD j 0 = (dftV (cheb_data c) j).re := by
  have hdl : (cheb_data c).length = 2 * n := by
    rw [cheb_data_length, hc]
    omega
  have hil : (ifft (cheb_data c)).length = 2 * n := by rw [ifft_length, hdl]
  rw [chebpolyval]
  simp only [hc]
  rw [if_neg (by omega), getD_map_zero _ (by simp) _ j]
  congr 1
  rw [List.getD_eq_getElem _ _ (by
      rw [List.length_take, List.length_map, hil]
      omega),
    List.getElem_take, ← List.getD_eq_getElem _ _ (by rw [List.length_map, hil]; omega),
    getD_map_zero _ (by simp) _ j, ifft_getD _ j (by rw [hdl]; omega), hdl]
  have h2n : ((2 * n : ℕ) : ℂ) ≠ 0 := by
    simp
    omega
  have hcast : (2 : ℂ) * (((n + 1 : ℕ) : ℂ) - 1) = ((2 * n : ℕ) : ℂ) := by
    push_cast
    ring
  rw [hcast, div_mul_cancel₀ _ h2n]

/-- Entry formula for the `cheb_data` vector. -/
theorem cheb_data_getD (c : List ℝ) (n : ℕ) (hc : c.length = n + 1) (hn : 1 ≤ n)
    (s : ℕ) (hs : s < 2 * n) :
    (cheb_data c).getD s 0
      = Complex.ofReal (if s ≤ n then c.getD s 0 else c.getD (2 * n - s) 0)
        * (if s = 0 ∨ s = n then 1 else 2⁻¹) := by
  have hmvl : (c.map Complex.ofReal).length = n + 1 := by rw [List.length_map, hc]
  have hedl : (even_data (c.map Complex.ofReal)).length = 2 * n := by
    rw [even_data_length_raw, hmvl]
    omega
  have hbase : ∀ t < 2 * n, ((even_data (c.map Complex.ofReal)).map (· / 2)).getD t 0
      = Complex.ofReal (if t ≤ n then c.getD t 0 else c.getD (2 * n - t) 0) / 2 := by
    intro t ht
    rw [getD_map_zero _ (by simp) _ t]
    congr 1
    by_cases htn : t ≤ n
    · rw [if_pos htn, even_data_getD_low _ _ (by rw [hmvl]; omega),
        getD_map_zero _ (by simp) _ t]
    · rw [if_neg htn, even_data_getD_high _ n hmvl t (by omega) ht,
        getD_map_zero _ (by simp) _ (2 * n - t)]
  rw [cheb_data]
  simp only [hc, Nat.add_sub_cancel]
  have hml : (((even_data (c.map Complex.ofReal)).map (· / 2))).length = 2 * n := by
    rw [List.length_map, hedl]
  rcases eq_or_ne s 0 with hs0 | hs0
  · rw [if_pos (Or.inl hs0), hs0, mapAt_getD_ne _ _ _ _ (by omega),
      mapAt_getD_same _ _ _ (by rw [hml]; omega), hbase 0 (by omega)]
    ring
  rcases eq_or_ne s n with hsn | hsn
  · rw [if_pos (Or.inr hsn), hsn,
      mapAt_getD_same _ _ _ (by rw [mapAt_length, hml]; omega),
      mapAt_getD_ne _ _ _ _ (by omega), hbase n (by omega)]
    ring
  · rw [if_neg (show ¬ (s = 0 ∨ s = n) by tauto), mapAt_getD_ne _ _ _ _ hsn,
      mapAt_getD_ne _ _ _ _ hs0, hbase s hs]
    ring

/-! ## Reality and symmetry of the kernel sums -/

theorem real_of_conj (z : ℂ) (h : (starRingEnd ℂ) z = z) : (z.re : ℂ) = z :=
  Complex.conj_eq_iff_re.mp h

theorem real_entries_even (v : List ℝ) (k : ℕ) :
    (starRingEnd ℂ) ((even_data (v.map Complex.ofReal)).getD k 0)
      = (even_data (v.map Complex.ofReal)).getD k 0 := by
  rw [even_data_map, getD_map_zero Complex.ofReal (by simp) _ k]
  exact Complex.conj_ofReal _

theorem dftS_conj (w : List ℂ) (M : ℕ) (hw : w.length = M)
    (hreal : ∀ k, (starRingEnd ℂ) (w.getD k 0) = w.getD k 0)
    (hsym : ∀ s, 1 ≤ s → s < M → w.getD (M - s) 0 = w.getD s 0) (j : ℕ) :
    (starRingEnd ℂ) (dftS w j) = dftS w j := by
  simp only [dftS, hw]
  rw [map_sum]
  have h1 : ∀ k ∈ Finset.range M,
      (starRingEnd ℂ) (w.getD k 0 * expk M (-((j : ℤ) * (k : ℤ))))
        = w.getD k 0 * expk M ((j : ℤ) * (k : ℤ)) := by
    intro k _
    rw [map_mul, hreal k, conj_expk, neg_neg]
  rw [Finset.sum_congr rfl h1, sum_flip w M hsym j]

theorem dftV_conj (w : List ℂ) (M : ℕ) (hw : w.length = M)
    (hreal : ∀ k, (starRingEnd ℂ) (w.getD k 0) = w.getD k 0)
    (hsym : ∀ s, 1 ≤ s → s < M → w.getD (M - s) 0 = w.getD s 0) (j : ℕ) :
    (starRingEnd ℂ) (dftV w j) = dftV w j := by
  simp only [dftV, hw]
  rw [map_sum]
  have h1 : ∀ k ∈ Finset.range M,
      (starRingEnd ℂ) (w.getD k 0 * expk M ((j : ℤ) * (k : ℤ)))
        = w.getD k 0 * expk M (-((j : ℤ) * (k : ℤ))) := by
    intro k _
    rw [map_mul, hreal k, conj_expk]
  rw [Finset.sum_congr rfl h1, ← sum_flip w M hsym j]

theorem dftS_symm (w : List ℂ) (M : ℕ) (hw : w.length = M)
    (hsym : ∀ s, 1 ≤ s → s < M → w.getD (M - s) 0 = w.getD s 0) (j : ℕ) (hj : j ≤ M) :
    dftS w (M - j) = dftS w j := by
  simp only [dftS, hw]
  have h1 : ∀ k ∈ Finset.range M,
      w.getD k 0 * expk M (-(((M - j : ℕ) : ℤ) * (k : ℤ)))
        = w.getD k 0 * expk M ((j : ℤ) * (k : ℤ)) := by
    intro k _
    congr 1
    rw [Nat.cast_sub hj,
      show -(((M : ℤ) - (j : ℤ)) * (k : ℤ)) = (j : ℤ) * (k : ℤ) + (M : ℤ) * (-(k : ℤ)) by ring,
      expk_periodic]
  rw [Finset.sum_congr rfl h1, sum_flip w M hsym j]

theorem dftV_symm (w : List ℂ) (M : ℕ) (hw : w.length = M)
    (hsym : ∀ s, 1 ≤ s → s < M → w.getD (M - s) 0 = w.getD s 0) (j : ℕ) (hj : j ≤ M) :
    dftV w (M - j) = dftV w j := by
  simp only [dftV, hw]
  have h1 : ∀ k ∈ Finset.range M,
      w.getD k 0 * expk M ((((M - j : ℕ) : ℤ)) * (k : ℤ))
        = w.getD k 0 * expk M (-((j : ℤ) * (k : ℤ))) := by
    intro k _
    congr 1
    rw [Nat.cast_sub hj,
      show (((M : ℤ) - (j : ℤ)) * (k : ℤ)) = -((j : ℤ) * (k : ℤ)) + (M : ℤ) * (k : ℤ) by ring,
      expk_periodic]
  rw [Finset.sum_congr rfl h1, ← sum_flip w M hsym j]

/-! ## The round-trip theorems for the transform pair -/

/-- `chebpolyval` inverts `chebpolyfit` exactly (in exact arithmetic). -/
theorem chebpolyval_chebpolyfit (v : List ℝ) (h : 1 ≤ v.length) :
    chebpolyval (chebpolyfit v) = v := by
  rcases eq_or_ne v.length 1 with h1 | h1
  · rw [chebpolyfit, if_pos h1, chebpolyval, if_pos h1]
  obtain ⟨n, hn, hv⟩ : ∃ n, 1 ≤ n ∧ v.length = n + 1 := ⟨v.length - 1, by omega, by omega⟩
  set w := even_data (v.map Complex.ofReal) with hw_def
  have hwlen : w.length = 2 * n := by
    rw [hw_def, even_data_length_raw, List.length_map, hv]
    omega
  have hreal : ∀ k, (starRingEnd ℂ) (w.getD k 0) = w.getD k 0 := real_entries_even v
  have hsym : ∀ s, 1 ≤ s → s < 2 * n → w.getD (2 * n - s) 0 = w.getD s 0 := by
    intro s hs1 hs2
    exact even_data_symm (v.map Complex.ofReal) n (by rw [List.length_map, hv]) hn s hs1 hs2
  set c := chebpolyfit v with hc_def
  have hclen : c.length = n + 1 := by rw [hc_def, chebpolyfit_length, hv]
  have hnne : (n : ℂ) ≠ 0 := Nat.cast_ne_zero.mpr (by omega)
  have hofc : ∀ j ≤ n, (Complex.ofReal (c.getD j 0))
      = dftS w j / (n : ℂ) / (if j = 0 ∨ j = n then 2 else 1) := by
    intro j hj
    rw [hc_def, chebpolyfit_getD v n hv hn j hj, ← hw_def]
    apply real_of_conj
    rw [map_div₀, map_div₀, dftS_conj w (2 * n) hwlen hreal hsym j]
    simp [apply_ite (starRingEnd ℂ), map_ofNat]
  have hdata : ∀ s < 2 * n, (cheb_data c).getD s 0 = dftS w s / ((2 * n : ℕ) : ℂ) := by
    intro s hs
    rw [cheb_data_getD c n hclen hn s hs]
    rcases le_or_lt s n with hsn | hsn
    · rw [if_pos hsn, hofc s hsn]
      by_cases hs0 : s = 0 ∨ s = n
      · rw [if_pos hs0, if_pos hs0]
        push_cast
        ring
      · rw [if_neg hs0, if_neg hs0]
        push_cast
        ring
    · have hmirror : 2 * n - s ≤ n := by omega
      rw [if_neg (show ¬ (s ≤ n) by omega), hofc (2 * n - s) hmirror,
        dftS_symm w (2 * n) hwlen hsym s (by omega),
        if_neg (show ¬ (2 * n - s = 0 ∨ 2 * n - s = n) by omega),
        if_neg (show ¬ (s = 0 ∨ s = n) by omega)]
      push_cast
      ring
  apply List.ext_getElem
  · rw [chebpolyval_length, hclen, hv]
  intro i hi1 hi2
  rw [← List.getD_eq_getElem _ _ hi1, ← List.getD_eq_getElem _ _ hi2]
  have hi : i ≤ n := by
    rw [hv] at hi2
    omega
  rw [chebpolyval_getD c n hclen hn i hi]
  have hcd : (cheb_data c).length = 2 * n := by
    rw [cheb_data_length, hclen]
    omega
  have h2nne : ((2 * n : ℕ) : ℂ) ≠ 0 := Nat.cast_ne_zero.mpr (by omega)
  have hVal : dftV (cheb_data c) i = Complex.ofReal (v.getD i 0) := by
    rw [dftV]
    simp only [hcd]
    rw [Finset.sum_congr rfl (fun k hk => by
      rw [hdata k (Finset.mem_range.mp hk),
        show ((i : ℤ) * (k : ℤ)) = ((k : ℤ) * (i : ℤ)) from mul_comm _ _,
        div_mul_eq_mul_div])]
    rw [← Finset.sum_div, dft_inversion w (2 * n) hwlen (by omega) i (by omega),
      mul_div_cancel_left₀ _ h2nne, hw_def,
      even_data_getD_low _ _ (by rw [List.length_map, hv]; omega),
      getD_map_zero Complex.ofReal (by simp) _ i]
  rw [hVal, Complex.ofReal_re]

/-- `chebpolyfit` inverts `chebpolyval` exactly (in exact arithmetic). -/
theorem chebpolyfit_chebpolyval (c : List ℝ) (h : 1 ≤ c.length) :
    chebpolyfit (chebpolyval c) = c := by
  rcases eq_or_ne c.length 1 with h1 | h1
  · rw [chebpolyval, if_pos h1, chebpolyfit, if_pos h1]
  obtain ⟨n, hn, hc⟩ : ∃ n, 1 ≤ n ∧ c.length = n + 1 := ⟨c.length - 1, by omega, by omega⟩
  set d := cheb_data c with hd_def
  have hdlen : d.length = 2 * n := by
    rw [hd_def, cheb_data_length, hc]
    omega
  have hnne : (n : ℂ) ≠ 0 := Nat.cast_ne_zero.mpr (by omega)
  have h2nne : ((2 * n : ℕ) : ℂ) ≠ 0 := Nat.cast_ne_zero.mpr (by omega)
  have hdreal : ∀ k, (starRingEnd ℂ) (d.getD k 0) = d.getD k 0 := by
    intro k
    rcases Nat.lt_or_ge k (2 * n) with hk | hk
    · rw [hd_def, cheb_data_getD c n hc hn k hk, map_mul, Complex.conj_ofReal]
      congr 1
      split_ifs <;> simp [map_ofNat]
    · rw [List.getD_eq_default _ _ (by rw [hdlen]; omega), map_zero]
  have hdsym : ∀ s, 1 ≤ s → s < 2 * n → d.getD (2 * n - s) 0 = d.getD s 0 := by
    intro s hs1 hs2
    rw [hd_def, cheb_data_getD c n hc hn _ (by omega), cheb_data_getD c n hc hn s hs2]
    rcases eq_or_ne s n with hseq | hsne
    · rw [hseq]
      simp only [show 2 * n - n = n by omega]
    rcases Nat.lt_or_ge s n with hsn | hsn
    · rw [if_neg (show ¬ (2 * n - s ≤ n) by omega), if_pos (show s ≤ n by omega),
        if_neg (show ¬ (2 * n - s = 0 ∨ 2 * n - s = n) by omega),
        if_neg (show ¬ (s = 0 ∨ s = n) by omega), show 2 * n - (2 * n - s) = s by omega]
    · rw [if_pos (show 2 * n - s ≤ n by omega), if_neg (show ¬ (s ≤ n) by omega),
        if_neg (show ¬ (2 * n - s = 0 ∨ 2 * n - s = n) by omega),
        if_neg (show ¬ (s = 0 ∨ s = n) by omega)]
  set v := chebpolyval c with hv_def
  have hvlen : v.length = n + 1 := by rw [hv_def, chebpolyval_length, hc]
  have hVconj : ∀ j, (starRingEnd ℂ) (dftV d j) = dftV d j :=
    fun j => dftV_conj d (2 * n) hdlen hdreal hdsym j
  have hofv : ∀ j ≤ n, Complex.ofReal (v.getD j 0) = dftV d j := by
    intro j hj
    rw [hv_def, chebpolyval_getD c n hc hn j hj, ← hd_def]
    exact real_of_conj _ (hVconj j)
  set w2 := even_data (v.map Complex.ofReal) with hw2_def
  have hw2len : w2.length = 2 * n := by
    rw [hw2_def, even_data_length_raw, List.length_map, hvlen]
    omega
  have hw2 : ∀ s < 2 * n, w2.getD s 0 = dftV d s := by
    intro s hs
    rcases Nat.lt_or_ge s (n + 1) with hlow | hhigh
    · rw [hw2_def, even_data_getD_low _ _ (by rw [List.length_map, hvlen]; omega),
        getD_map_zero Complex.ofReal (by simp) _ s, hofv s (by omega)]
    · rw [hw2_def,
        even_data_getD_high (v.map Complex.ofReal) n (by rw [List.length_map, hvlen]) s hhigh hs,
        getD_map_zero Complex.ofReal (by simp) _ (2 * n - s), hofv (2 * n - s) (by omega),
        dftV_symm d (2 * n) hdlen hdsym s (by omega)]
  apply List.ext_getElem
  · rw [chebpolyfit_length, hvlen, hc]
  intro i hi1 hi2
  rw [← List.getD_eq_getElem _ _ hi1, ← List.getD_eq_getElem _ _ hi2]
  have hi : i ≤ n := by
    rw [hc] at hi2
    omega
  rw [chebpolyfit_getD v n hvlen hn i hi, ← hw2_def]
  have hS : dftS w2 i = ((2 * n : ℕ) : ℂ) * d.getD i 0 := by
    rw [dftS]
    simp only [hw2len]
    rw [Finset.sum_congr rfl (fun k hk => by
      rw [hw2 k (Finset.mem_range.mp hk),
        show (-((i : ℤ) * (k : ℤ))) = -((k : ℤ) * (i : ℤ)) by ring])]
    exact dft_inversion_rev d (2 * n) hdlen (by omega) i (by omega)
  rw [hS, hd_def, cheb_data_getD c n hc hn i (by omega), if_pos hi]
  by_cases hi0 : i = 0 ∨ i = n
  · rw [if_pos hi0, if_pos hi0]
    have heval : ((2 * n : ℕ) : ℂ) * ((Complex.ofReal (c.getD i 0)) * 1) / (n : ℂ) / 2
        = Complex.ofReal (c.getD i 0) := by
      push_cast
      field_simp
      try ring
    rw [heval, Complex.ofReal_re]
  · rw [if_neg hi0, if_neg hi0]
    have heval : ((2 * n : ℕ) : ℂ) * ((Complex.ofReal (c.getD i 0)) * 2⁻¹) / (n : ℂ) / 1
        = Complex.ofReal (c.getD i 0) := by
      push_cast
      field_simp
      try ring
    rw [heval, Complex.ofReal_re]

/-! ## The last entry of `chebpolyval` is the alternating coefficient sum -/

theorem expk_two_mul (n s : ℕ) (hn : 1 ≤ n) :
    expk (2 * n) ((n : ℤ) * (s : ℤ)) = (-1 : ℂ) ^ s := by
  rw [expk]
  have hnne : (n : ℂ) ≠ 0 := Nat.cast_ne_zero.mpr (by omega)
  have hcast : 2 * (Real.pi : ℂ) * Complex.I * (((n : ℤ) * (s : ℤ) : ℤ) : ℂ) / ((2 * n : ℕ) : ℂ)
      = (s : ℕ) * ((Real.pi : ℂ) * Complex.I) := by
    push_cast
    field_simp
    ring
  rw [hcast, Complex.exp_nat_mul, Complex.exp_pi_mul_I]

theorem alt_sum_split (c : List ℝ) (n : ℕ) (hn : 1 ≤ n) :
    ∑ s ∈ Finset.range (2 * n), (if s ≤ n then c.getD s 0 else c.getD (2 * n - s) 0)
      * (if s = 0 ∨ s = n then 1 else 2⁻¹) * (-1 : ℝ) ^ s
    = ∑ i ∈ Finset.range (n + 1), (-1 : ℝ) ^ i * c.getD i 0 := by
  obtain ⟨m, rfl⟩ : ∃ m, n = m + 1 := ⟨n - 1, by omega⟩
  have hL1 : ∑ s ∈ Finset.range (2 * (m + 1)),
      (if s ≤ m + 1 then c.getD s 0 else c.getD (2 * (m + 1) - s) 0)
        * (if s = 0 ∨ s = m + 1 then 1 else 2⁻¹) * (-1 : ℝ) ^ s
      = (∑ s ∈ Finset.range (m + 2),
          (if s ≤ m + 1 then c.getD s 0 else c.getD (2 * (m + 1) - s) 0)
            * (if s = 0 ∨ s = m + 1 then 1 else 2⁻¹) * (-1 : ℝ) ^ s)
        + ∑ i ∈ Finset.range m,
          (if m + 2 + i ≤ m + 1 then c.getD (m + 2 + i) 0
              else c.getD (2 * (m + 1) - (m + 2 + i)) 0)
            * (if m + 2 + i = 0 ∨ m + 2 + i = m + 1 then 1 else 2⁻¹) * (-1 : ℝ) ^ (m + 2 + i) := by
    rw [Finset.range_eq_Ico,
      ← Finset.sum_Ico_consecutive _ (show 0 ≤ m + 2 by omega)
        (show m + 2 ≤ 2 * (m + 1) by omega),
      ← Finset.range_eq_Ico, Finset.sum_Ico_eq_sum_range]
    simp only [show 2 * (m + 1) - (m + 2) = m by omega]
  rw [hL1]
  have hL2 : ∀ i ∈ Finset.range m,
      (if m + 2 + i ≤ m + 1 then c.getD (m + 2 + i) 0
          else c.getD (2 * (m + 1) - (m + 2 + i)) 0)
        * (if m + 2 + i = 0 ∨ m + 2 + i = m + 1 then 1 else 2⁻¹) * (-1 : ℝ) ^ (m + 2 + i)
      = 2⁻¹ * ((-1 : ℝ) ^ (m - i) * c.getD (m - i) 0) := by
    intro i hi
    have him : i < m := Finset.mem_range.mp hi
    rw [if_neg (by omega), if_neg (by omega), show 2 * (m + 1) - (m + 2 + i) = m - i by omega,
      show m + 2 + i = (m - i) + 2 * (i + 1) by omega, pow_add, pow_mul,
      show ((-1 : ℝ) ^ 2) = 1 by norm_num, one_pow]
    ring
  rw [Finset.sum_congr rfl hL2]
  have hrefl : ∑ i ∈ Finset.range m, 2⁻¹ * ((-1 : ℝ) ^ (m - i) * c.getD (m - i) 0)
      = ∑ i ∈ Finset.range m, 2⁻¹ * ((-1 : ℝ) ^ (i + 1) * c.getD (i + 1) 0) := by
    rw [← Finset.sum_range_reflect (fun i => 2⁻¹ * ((-1 : ℝ) ^ (i + 1) * c.getD (i + 1) 0)) m]
    apply Finset.sum_congr rfl
    intro i hi
    have him : i < m := Finset.mem_range.mp hi
    simp only [show m - 1 - i + 1 = m - i by omega]
  rw [hrefl]
  have hL3 : ∑ s ∈ Finset.range (m + 2),
      (if s ≤ m + 1 then c.getD s 0 else c.getD (2 * (m + 1) - s) 0)
        * (if s = 0 ∨ s = m + 1 then 1 else 2⁻¹) * (-1 : ℝ) ^ s
      = (∑ i ∈ Finset.range m, 2⁻¹ * ((-1 : ℝ) ^ (i + 1) * c.getD (i + 1) 0))
        + c.getD 0 0 + (-1 : ℝ) ^ (m + 1) * c.getD (m + 1) 0 := by
    rw [Finset.sum_range_succ, Finset.sum_range_succ']
    have hterm : ∀ i ∈ Finset.range m,
        (if i + 1 ≤ m + 1 then c.getD (i + 1) 0 else c.getD (2 * (m + 1) - (i + 1)) 0)
          * (if i + 1 = 0 ∨ i + 1 = m + 1 then 1 else 2⁻¹) * (-1 : ℝ) ^ (i + 1)
        = 2⁻¹ * ((-1 : ℝ) ^ (i + 1) * c.getD (i + 1) 0) := by
      intro i hi
      have him : i < m := Finset.mem_range.mp hi
      rw [if_pos (by omega), if_neg (by omega)]
      ring
    rw [Finset.sum_congr rfl hterm]
    have h0 : (if (0 : ℕ) ≤ m + 1 then c.getD 0 0 else c.getD (2 * (m + 1) - 0) 0)
        * (if (0 : ℕ) = 0 ∨ (0 : ℕ) = m + 1 then 1 else 2⁻¹) * (-1 : ℝ) ^ (0 : ℕ)
        = c.getD 0 0 := by
      rw [if_pos (by omega), if_pos (Or.inl rfl)]
      ring
    have hm1 : (if m + 1 ≤ m + 1 then c.getD (m + 1) 0 else c.getD (2 * (m + 1) - (m + 1)) 0)
        * (if m + 1 = 0 ∨ m + 1 = m + 1 then 1 else 2⁻¹) * (-1 : ℝ) ^ (m + 1)
        = (-1 : ℝ) ^ (m + 1) * c.getD (m + 1) 0 := by
      rw [if_pos (by omega), if_pos (Or.inr rfl)]
      ring
    rw [h0, hm1]
  rw [hL3]
  have hR : ∑ i ∈ Finset.range (m + 1 + 1), (-1 : ℝ) ^ i * c.getD i 0
      = (∑ i ∈ Finset.range m, (-1 : ℝ) ^ (i + 1) * c.getD (i + 1) 0)
        + c.getD 0 0 + (-1 : ℝ) ^ (m + 1) * c.getD (m + 1) 0 := by
    rw [Finset.sum_range_succ, Finset.sum_range_succ']
    norm_num
  rw [hR]
  have hS : (∑ i ∈ Finset.range m, 2⁻¹ * ((-1 : ℝ) ^ (i + 1) * c.getD (i + 1) 0))
      + ∑ i ∈ Finset.range m, 2⁻¹ * ((-1 : ℝ) ^ (i + 1) * c.getD (i + 1) 0)
      = ∑ i ∈ Finset.range m, (-1 : ℝ) ^ (i + 1) * c.getD (i + 1) 0 := by
    rw [← Finset.sum_add_distrib]
    apply Finset.sum_congr rfl
    intro i _
    ring
  linarith [hS]

/-- The last entry of `chebpolyval c` is the alternating sum `Σ (-1)^i c_i`
(the value of the Chebyshev series at the node `-1`). -/
theorem chebpolyval_last (c : List ℝ) (h : 1 ≤ c.length) :
    (chebpolyval c).getD (c.length - 1) 0
      = ∑ i ∈ Finset.range c.length, (-1 : ℝ) ^ i * c.getD i 0 := by
  rcases eq_or_ne c.length 1 with h1 | h1
  · rw [chebpolyval, if_pos h1, h1, Finset.range_one, Finset.sum_singleton]
    simp
  obtain ⟨n, hn, hc⟩ : ∃ n, 1 ≤ n ∧ c.length = n + 1 := ⟨c.length - 1, by omega, by omega⟩
  have hdlen : (cheb_data c).length = 2 * n := by
    rw [cheb_data_length, hc]
    omega
  rw [hc, Nat.add_sub_cancel, chebpolyval_getD c n hc hn n (le_refl n)]
  have hform : dftV (cheb_data c) n
      = Complex.ofReal (∑ i ∈ Finset.range (n + 1), (-1 : ℝ) ^ i * c.getD i 0) := by
    rw [dftV]
    simp only [hdlen]
    rw [Finset.sum_congr rfl (fun s hs => by
      rw [cheb_data_getD c n hc hn s (Finset.mem_range.mp hs), expk_two_mul n s hn])]
    have hterm : ∀ s ∈ Finset.range (2 * n),
        (Complex.ofReal (if s ≤ n then c.getD s 0 else c.getD (2 * n - s) 0)
          * (if s = 0 ∨ s = n then 1 else 2⁻¹)) * (-1 : ℂ) ^ s
        = Complex.ofReal ((if s ≤ n then c.getD s 0 else c.getD (2 * n - s) 0)
            * (if s = 0 ∨ s = n then 1 else 2⁻¹) * (-1 : ℝ) ^ s) := by
      intro s _
      push_cast [apply_ite Complex.ofReal]
      ring
    rw [Finset.sum_congr rfl hterm, ← Complex.ofReal_sum, alt_sum_split c n hn]
  rw [hform, Complex.ofReal_re]

/-! ## Characterisation of the pruning cutoff -/

/-- The last element of `filter p (range N)` is the greatest index below `N`
satisfying `p`, and it is `none` exactly when no index satisfies `p`. -/
theorem filter_range_getLast (p : ℕ → Bool) (N : ℕ) :
    (((List.range N).filter p).getLast? = none ∧ ∀ j, j < N → p j = false)
    ∨ ∃ i, i < N ∧ p i = true ∧ (∀ j, i < j → j < N → p j = false)
        ∧ ((List.range N).filter p).getLast? = some i := by
  induction N with
  | zero => exact Or.inl ⟨rfl, by omega⟩
  | succ N ih =>
      have hsplit : (List.range (N + 1)).filter p
          = ((List.range N).filter p) ++ (if p N then [N] else []) := by
        rw [List.range_succ, List.filter_append]
        congr 1
        cases hp : p N <;> simp [List.filter, hp]
      cases hpN : p N with
      | true =>
          refine Or.inr ⟨N, by omega, hpN, by omega, ?_⟩
          rw [hsplit, hpN, if_pos rfl, List.getLast?_concat]
      | false =>
          have hsame : (List.range (N + 1)).filter p = (List.range N).filter p := by
            rw [hsplit, hpN]
            simp
          rcases ih with ⟨hnone, hall⟩ | ⟨i, hi, hpi, hmax, hlast⟩
          · refine Or.inl ⟨by rw [hsame]; exact hnone, ?_⟩
            intro j hj
            rcases eq_or_ne j N with rfl | hne
            · exact hpN
            · exact hall j (by omega)
          · refine Or.inr ⟨i, by omega, hpi, ?_, by rw [hsame]; exact hlast⟩
            intro j h1 h2
            rcases eq_or_ne j N with rfl | hne
            · exact hpN
            · exact hmax j h1 (by omega)

/-- Full characterisation of `Fun._cutoff`. -/
theorem cutoff_spec (coeffs : List ℝ) (vscale : ℝ) :
    ((∃ i, i < coeffs.length ∧ threshold vscale ≤ |coeffs.getD i 0|) →
      ∃ i, i < coeffs.length ∧ threshold vscale ≤ |coeffs.getD i 0|
        ∧ cutoff coeffs vscale = i + 1
        ∧ ∀ j, i < j → j < coeffs.length → |coeffs.getD j 0| < threshold vscale)
    ∧ ((∀ i, i < coeffs.length → |coeffs.getD i 0| < threshold vscale) →
        cutoff coeffs vscale = 1) := by
  classical
  set p : ℕ → Bool := fun i => decide (threshold vscale ≤ |coeffs.getD i 0|) with hp
  have hpt : ∀ i, p i = true ↔ threshold vscale ≤ |coeffs.getD i 0| := by
    intro i
    rw [hp]
    simp
  have hpf : ∀ i, p i = false ↔ |coeffs.getD i 0| < threshold vscale := by
    intro i
    rw [hp]
    simp
  constructor
  · rintro ⟨i0, hi0, hth0⟩
    rcases filter_range_getLast p coeffs.length with ⟨_, hall⟩ | ⟨i, hi, hpi, hmax, hlast⟩
    · exact absurd ((hpf i0).mp (hall i0 hi0)) (not_lt.mpr hth0)
    · refine ⟨i, hi, (hpt i).mp hpi, ?_, fun j h1 h2 => (hpf j).mp (hmax j h1 h2)⟩
      rw [cutoff]
      simp only [← hp]
      rw [hlast]
  · intro hall
    rcases filter_range_getLast p coeffs.length with ⟨hnone, _⟩ | ⟨i, hi, hpi, _, _⟩
    · rw [cutoff]
      simp only [← hp]
      rw [hnone]
    · exact absurd ((hpt i).mp hpi) (not_le.mpr (hall i hi))

/-! ## Claim C2: the transforms are mutual inverses -/

/-- C2: for every sample vector `v` of length `N ≥ 1`, applying
`values_to_coefficients` (`chebpolyfit`) and then `coefficients_to_values`
(`chebpolyval`) returns `v`; in the exact-real model of floating point the two
transforms are exact mutual inverses (the ~1e-12 float round-trip bound). -/
theorem chebpolyfit_chebpolyval_inverse (v : List ℝ) (h : 1 ≤ v.length) :
    chebpolyval (chebpolyfit v) = v ∧ chebpolyfit (chebpolyval v) = v :=
  ⟨chebpolyval_chebpolyfit v h, chebpolyfit_chebpolyval v h⟩

/-- Witness for C2 at the concrete sample vector `[1, 2]`. -/
theorem chebpolyfit_chebpolyval_inverse_witness :
    chebpolyval (chebpolyfit [1, 2]) = [1, 2] ∧ chebpolyfit (chebpolyval [1, 2]) = [1, 2] :=
  chebpolyfit_chebpolyval_inverse [1, 2] (by simp)

/-! ## Claim C4: the pruning in `from_chebcoeff` -/

/-- C4 counterexample: with the default `vscale = 1`,
`from_chebcoeff([4096, 2^-42], prune=True)` keeps both coefficients, although
the magnitude of the second one is strictly below the claimed threshold
`128 * emach * max |coeffs|` (so the claim's pruning rule would keep only the
first). -/
theorem from_chebcoeff_prune_counterexample :
    ((Fun.from_chebcoeff [4096, 1 / 2 ^ 42] (-1, 1) true 1).values).length = 2
    ∧ (1 / 2 ^ 42 : ℝ) < 128 * emach * maxAbs [4096, 1 / 2 ^ 42] := by
  constructor
  · have hcut : cutoff [(4096 : ℝ), 1 / 2 ^ 42] 1 = 2 := by
      obtain ⟨i, hi, hth, hcut, hmax⟩ := (cutoff_spec [(4096 : ℝ), 1 / 2 ^ 42] 1).1
        ⟨1, by simp, by
          simp only [List.getD_cons_succ, List.getD_cons_zero]
          rw [abs_of_nonneg (by norm_num : (0 : ℝ) ≤ 1 / 2 ^ 42)]
          norm_num [threshold, emach]⟩
      have hi2 : i < 2 := by simpa using hi
      interval_cases i
      · exfalso
        have := hmax 1 (by omega) (by simp)
        simp only [List.getD_cons_succ, List.getD_cons_zero] at this
        rw [abs_of_nonneg (by norm_num : (0 : ℝ) ≤ 1 / 2 ^ 42), threshold, emach] at this
        norm_num at this
      · exact hcut
    rw [Fun.from_chebcoeff]
    simp only [Fun.make, hcut, if_true]
    rw [chebpolyval_length]
    simp
  · have hmax : maxAbs [(4096 : ℝ), 1 / 2 ^ 42] = 4096 := by
      rw [maxAbs]
      simp only [List.map_cons, List.map_nil, List.foldr_cons, List.foldr_nil]
      rw [abs_of_nonneg (by norm_num : (0 : ℝ) ≤ 4096),
        abs_of_nonneg (by norm_num : (0 : ℝ) ≤ 1 / 2 ^ 42),
        max_eq_left (by norm_num : (0 : ℝ) ≤ 1 / 2 ^ 42),
        max_eq_left (by norm_num : (1 / 2 ^ 42 : ℝ) ≤ 4096)]
    rw [hmax, emach]
    norm_num

/-- C4 (amended): `from_chebcoeff(coeffs, prune=True, vscale)` keeps exactly
the prefix up to and including the highest-index coefficient whose magnitude
is at least `128 * emach * vscale` — the threshold is computed from the
`vscale` argument (default `1`), not from `max |coeffs|` — and keeps a single
coefficient when no coefficient reaches the threshold. -/
theorem from_chebcoeff_prune_spec (coeffs : List ℝ) (domain : ℝ × ℝ) (vscale : ℝ)
    (h : 1 ≤ coeffs.length) :
    (Fun.from_chebcoeff coeffs domain true vscale).values
        = chebpolyval (coeffs.take (cutoff coeffs vscale))
    ∧ (Fun.from_chebcoeff coeffs domain true vscale).values.length
        = min (cutoff coeffs vscale) coeffs.length
    ∧ ((∃ i, i < coeffs.length ∧ threshold vscale ≤ |coeffs.getD i 0|) →
        ∃ i, i < coeffs.length ∧ threshold vscale ≤ |coeffs.getD i 0|
          ∧ cutoff coeffs vscale = i + 1
          ∧ ∀ j, i < j → j < coeffs.length → |coeffs.getD j 0| < threshold vscale)
    ∧ ((∀ i, i < coeffs.length → |coeffs.getD i 0| < threshold vscale) →
        cutoff coeffs vscale = 1 ∧
          (Fun.from_chebcoeff coeffs domain true vscale).values.length = 1) := by
  refine ⟨rfl, ?_, (cutoff_spec coeffs vscale).1, ?_⟩
  · rw [Fun.from_chebcoeff]
    simp only [Fun.make, if_true]
    rw [chebpolyval_length, List.length_take]
  · intro hall
    have hcut : cutoff coeffs vscale = 1 := (cutoff_spec coeffs vscale).2 hall
    refine ⟨hcut, ?_⟩
    rw [Fun.from_chebcoeff]
    simp only [Fun.make, hcut, if_true]
    rw [chebpolyval_length, List.length_take]
    omega

/-- Witness for C4 (amended) at the concrete input `[3, 0]`, `vscale = 1`:
only the constant coefficient survives. -/
theorem from_chebcoeff_prune_spec_witness :
    (Fun.from_chebcoeff [3, 0] (-1, 1) true 1).values.length
      = min (cutoff [(3 : ℝ), 0] 1) 2 :=
  (from_chebcoeff_prune_spec [3, 0] (-1, 1) 1 (by simp)).2.1

/-! ## Claim C8: the barycentric weights -/

theorem replicate_set_getD (N : ℕ) (j : ℕ) (hj : j < N) :
    ((List.replicate N (1 : ℝ)).set 0 (1 / 2)).getD j 0 = if j = 0 then 1 / 2 else 1 := by
  rcases eq_or_ne j 0 with rfl | hj0
  · rw [if_pos rfl, List.getD_eq_getElem _ _ (by simp; omega), List.getElem_set_self]
  · rw [if_neg hj0, List.getD_eq_getElem _ _ (by simp; omega), List.getElem_set_ne (by omega),
      List.getElem_replicate]

/-- C8: for every node count `N ≥ 2`, the barycentric weight vector built by
the interpolator constructor has magnitude `1/2` at the two boundary nodes,
magnitude `1` at every interior node, and signs alternating from node to node,
starting positive at the first node. -/
theorem bary_weights_spec (N : ℕ) (h : 2 ≤ N) :
    (bary_weights N).length = N
    ∧ ∀ k, k < N → (bary_weights N).getD k 0
        = (-1 : ℝ) ^ k * (if k = 0 ∨ k = N - 1 then 1 / 2 else 1) := by
  have hofn : ∀ j, j < N → (List.ofFn fun i : Fin N => if i.1 % 2 = 1 then (-1 : ℝ)
      else ((List.replicate N (1 : ℝ)).set 0 (1 / 2)).getD i.1 0).getD j 0
      = if j % 2 = 1 then (-1 : ℝ) else if j = 0 then 1 / 2 else 1 := by
    intro j hj
    rw [List.getD_eq_getElem _ _ (by simpa using hj), List.getElem_ofFn]
    by_cases hpar : j % 2 = 1
    · rw [if_pos hpar, if_pos hpar]
    · rw [if_neg hpar, if_neg hpar, replicate_set_getD N j hj]
  constructor
  · simp only [bary_weights]
    rw [mapAt_length]
    simp
  intro k hk
  simp only [bary_weights]
  rcases eq_or_ne k (N - 1) with rfl | hne
  · rw [mapAt_getD_same _ _ _ (by simp; omega), hofn (N - 1) (by omega),
      if_pos (Or.inr rfl)]
    by_cases hpar : (N - 1) % 2 = 1
    · rw [if_pos hpar, (Nat.odd_iff.mpr hpar).neg_one_pow]
    · rw [if_neg hpar, if_neg (by omega),
        (Nat.even_iff.mpr (by omega)).neg_one_pow]
  · rw [mapAt_getD_ne _ _ _ _ hne, hofn k hk]
    by_cases hpar : k % 2 = 1
    · rw [if_pos hpar, if_neg (by omega), (Nat.odd_iff.mpr hpar).neg_one_pow]
      ring
    · rw [if_neg hpar]
      rcases eq_or_ne k 0 with rfl | hk0
      · rw [if_pos rfl, if_pos (Or.inl rfl), pow_zero]
        ring
      · rw [if_neg hk0, if_neg (by omega), (Nat.even_iff.mpr (by omega)).neg_one_pow]
        ring

/-- Witness for C8 at the concrete node count `N = 4`. -/
theorem bary_weights_spec_witness :
    (bary_weights 4).getD 2 0 = (-1 : ℝ) ^ 2 * (if 2 = 0 ∨ 2 = 4 - 1 then 1 / 2 else 1)
    ∧ (bary_weights 4).getD 3 0 = (-1 : ℝ) ^ 3 * (if 3 = 0 ∨ 3 = 4 - 1 then 1 / 2 else 1) :=
  ⟨(bary_weights_spec 4 (by norm_num)).2 2 (by norm_num),
   (bary_weights_spec 4 (by norm_num)).2 3 (by norm_num)⟩

/-! ## Claim C10: the Chebyshev basis values -/

/-- C10: `basis(0)` is the constant `Fun` with the single value `1`, and for
`n ≥ 1`, `basis(n)` is built from the `n+1` values `+1, -1, +1, ...`
alternating in sign starting at `+1`, which are exactly the values of the
Chebyshev polynomial `T_n` at the `n+1` Chebyshev-Gauss-Lobatto nodes; both
are on the default domain `[-1, 1]`. -/
theorem basis_spec (n : ℕ) :
    (basis 0).values = [1] ∧ (basis n).domain = (-1, 1)
    ∧ (1 ≤ n →
        (basis n).values.length = n + 1
        ∧ ∀ k, k ≤ n →
            (basis n).values.getD k 0 = (-1 : ℝ) ^ k
            ∧ (basis n).values.getD k 0
              = (Polynomial.Chebyshev.T ℝ (n : ℤ)).eval
                  ((interpolation_points (n + 1)).getD k 0)) := by
  refine ⟨by rw [basis, if_pos rfl]; rfl, ?_, ?_⟩
  · rcases eq_or_ne n 0 with rfl | hn0
    · rw [basis, if_pos rfl]
      rfl
    · rw [basis, if_neg hn0]
      rfl
  intro hn
  have hnne : (n : ℝ) ≠ 0 := Nat.cast_ne_zero.mpr (by omega)
  have hvals : ∀ k, k ≤ n → (basis n).values.getD k 0 = (-1 : ℝ) ^ k := by
    intro k hk
    rw [basis, if_neg (by omega)]
    show (List.ofFn fun j : Fin (n + 1) => if j.1 % 2 = 1 then (-1 : ℝ) else 1).getD k 0 = _
    rw [List.getD_eq_getElem _ _ (by simpa using Nat.lt_succ_of_le hk), List.getElem_ofFn]
    by_cases hpar : k % 2 = 1
    · rw [if_pos hpar, (Nat.odd_iff.mpr hpar).neg_one_pow]
    · rw [if_neg hpar, (Nat.even_iff.mpr (by omega)).neg_one_pow]
  refine ⟨?_, ?_⟩
  · rw [basis, if_neg (by omega)]
    show (List.ofFn fun j : Fin (n + 1) => if j.1 % 2 = 1 then (-1 : ℝ) else 1).length = n + 1
    rw [List.length_ofFn]
  intro k hk
  refine ⟨hvals k hk, ?_⟩
  have hnode : (interpolation_points (n + 1)).getD k 0
      = Real.cos ((k : ℝ) * Real.pi / (n : ℝ)) := by
    rw [interpolation_points, if_neg (by omega),
      List.getD_eq_getElem _ _ (by simpa using Nat.lt_succ_of_le hk), List.getElem_ofFn]
    push_cast
    ring_nf
  rw [hnode, Polynomial.Chebyshev.T_real_cos]
  rw [show ((n : ℤ) : ℝ) * ((k : ℝ) * Real.pi / (n : ℝ)) = (k : ℝ) * Real.pi by
    push_cast
    field_simp]
  have hcos : Real.cos ((k : ℝ) * Real.pi) = (-1 : ℝ) ^ k := by
    have h2 := Real.cos_int_mul_pi_sub 0 (k : ℤ)
    simp at h2
    exact_mod_cast h2
  rw [hcos, hvals k hk]

/-! ## Claim C9: equality testing with mismatched domains raises -/

/-- C9: testing `==` between two `Fun`s whose domains differ beyond the
floating tolerance does not return a boolean: `__eq__` is the truth-test of
`self - other`, and the subtraction's `same_domain` check raises
`DomainMismatch` first. -/
theorem eq_domain_mismatch (f g : Fun) (h : ¬ sameDomain f g) :
    Fun.eq f g = .error (.domainMismatch f.domain g.domain) := by
  have hng : ¬ sameDomain f (Fun.neg g) := h
  rw [Fun.eq, Fun.sub, Fun.add, if_pos hng]
  rfl

/-- Witness for C9 at two concrete `Fun`s on `[-1,1]` and `[0,1]`. -/
theorem eq_domain_mismatch_witness :
    Fun.eq (Fun.make [1] (-1, 1) none) (Fun.make [1] (0, 1) none)
      = .error (.domainMismatch (-1, 1) (0, 1)) :=
  eq_domain_mismatch (Fun.make [1] (-1, 1) none) (Fun.make [1] (0, 1) none) (by
    intro hsd
    have h1 : |(-1 : ℝ) - 0| ≤ 1e-14 + 1e-14 * |(0 : ℝ)| := hsd.1
    norm_num at h1)

/-! ## Claim C7: `restrict` bounds checking -/

/-- C7: `restrict([c,d])` raises the invalid-bounds `ValueError`, reporting
the offending bounds, whenever `c ≥ d`, `c < a` or `d > b`; otherwise it
delegates to the adaptive re-fit `from_function(self, [c,d])`. -/
theorem restrict_spec (f : Fun) (c d : ℝ) :
    (c ≥ d → Fun.restrict f (c, d) = .error (.valueError [c, d]))
    ∧ (c < d → c < f.domain.1 →
        Fun.restrict f (c, d) = .error (.valueError [c, f.domain.1]))
    ∧ (c < d → f.domain.1 ≤ c → f.domain.2 < d →
        Fun.restrict f (c, d) = .error (.valueError [d, f.domain.2]))
    ∧ (c < d → f.domain.1 ≤ c → d ≤ f.domain.2 →
        Fun.restrict f (c, d) = Fun.from_function (Fun.eval f) (c, d) none) := by
  refine ⟨?_, ?_, ?_, ?_⟩
  · intro h1
    rw [Fun.restrict, if_pos h1]
  · intro h1 h2
    rw [Fun.restrict, if_neg (not_le.mpr h1), if_pos h2]
  · intro h1 h2 h3
    rw [Fun.restrict, if_neg (not_le.mpr h1), if_neg (not_lt.mpr h2), if_pos h3]
  · intro h1 h2 h3
    rw [Fun.restrict, if_neg (not_le.mpr h1), if_neg (not_lt.mpr h2), if_neg (not_lt.mpr h3)]

/-- Witness for C7 at a degenerate sub-interval of a concrete `Fun`. -/
theorem restrict_spec_witness :
    Fun.restrict (Fun.make [1] (-1, 1) none) (1, 0) = .error (.valueError [1, 0]) :=
  (restrict_spec (Fun.make [1] (-1, 1) none) 1 0).1 (by norm_num)

/-! ## Claim C5: binary operations check domains; addition zero-pads -/

theorem zip_pad_length (b a : List ℝ) (hab : a.length ≤ b.length) :
    (List.zipWith (· + ·) b (a ++ List.replicate (b.length - a.length) (0 : ℝ))).length
      = b.length := by
  simp
  omega

theorem zip_pad_getD (b a : List ℝ) (hab : a.length ≤ b.length) (k : ℕ) :
    (List.zipWith (· + ·) b (a ++ List.replicate (b.length - a.length) (0 : ℝ))).getD k 0
      = b.getD k 0 + a.getD k 0 := by
  have hpl : (a ++ List.replicate (b.length - a.length) (0 : ℝ)).length = b.length := by
    simp
    omega
  rcases Nat.lt_or_ge k b.length with hk | hk
  · rw [List.getD_eq_getElem _ _ (by simp; omega), List.getElem_zipWith,
      ← List.getD_eq_getElem b (0 : ℝ) hk,
      ← List.getD_eq_getElem (a ++ List.replicate (b.length - a.length) (0 : ℝ)) (0 : ℝ)
        (show k < (a ++ List.replicate (b.length - a.length) (0 : ℝ)).length by
          rw [hpl]; omega)]
    congr 1
    rcases Nat.lt_or_ge k a.length with hka | hka
    · rw [List.getD_eq_getElem _ _ (by rw [hpl]; omega), List.getElem_append_left hka,
        List.getD_eq_getElem a _ hka]
    · rw [List.getD_eq_default a _ hka, List.getD_eq_getElem _ _ (by rw [hpl]; omega),
        List.getElem_append_right hka, List.getElem_replicate]
  · rw [List.getD_eq_default _ _ (by simp; omega), List.getD_eq_default b _ hk,
      List.getD_eq_default a _ (by omega)]
    norm_num

/-- Unfolding of `Fun.__add__` in the matching-domain case. -/
theorem add_eq (f g : Fun) (h : sameDomain f g) :
    Fun.add f g = .ok (Fun.from_chebcoeff
      (List.zipWith (· + ·)
        (chebpolyfit (if 0 < (g.size : ℤ) - (f.size : ℤ) then g else f).values)
        (chebpolyfit (if 0 < (g.size : ℤ) - (f.size : ℤ) then f else g).values
          ++ List.replicate
            ((chebpolyfit (if 0 < (g.size : ℤ) - (f.size : ℤ) then g else f).values).length
              - (chebpolyfit (if 0 < (g.size : ℤ) - (f.size : ℤ) then f else g).values).length)
            0))
      f.domain true (max f.vscale g.vscale)) := by
  rw [Fun.add, if_neg (not_not_intro h)]

/-- C5: every binary arithmetic operation between two `Fun`s (addition and
subtraction on coefficients, and the resample-and-refit operations installed by
`_add_operator`) raises `DomainMismatch` — and never returns a `Fun` — when the
domains differ beyond the floating tolerance; with matching domains, addition
combines the Chebyshev coefficient vectors by zero-padding the shorter one to
the longer one's length. -/
theorem add_domain_spec (f g : Fun) :
    (¬ sameDomain f g →
        Fun.add f g = .error (.domainMismatch f.domain g.domain)
        ∧ Fun.sub f g = .error (.domainMismatch f.domain g.domain)
        ∧ ∀ op : ℝ → ℝ → ℝ,
            resample_binop op f g = .error (.domainMismatch f.domain g.domain))
    ∧ (sameDomain f g →
        ∃ cs : List ℝ,
          Fun.add f g = .ok (Fun.from_chebcoeff cs f.domain true (max f.vscale g.vscale))
          ∧ cs.length = max f.size g.size
          ∧ ∀ k, cs.getD k 0
              = (chebpolyfit f.values).getD k 0 + (chebpolyfit g.values).getD k 0) := by
  constructor
  · intro h
    refine ⟨?_, ?_, ?_⟩
    · rw [Fun.add, if_pos h]
    · rw [Fun.sub, Fun.add, if_pos (show ¬ sameDomain f (Fun.neg g) from h)]
      rfl
    · intro op
      rw [resample_binop, if_pos h]
  · intro h
    have hfl : (chebpolyfit f.values).length = f.size := chebpolyfit_length f.values
    have hgl : (chebpolyfit g.values).length = g.size := chebpolyfit_length g.values
    by_cases hd : 0 < (g.size : ℤ) - (f.size : ℤ)
    · refine ⟨List.zipWith (· + ·) (chebpolyfit g.values)
        (chebpolyfit f.values ++ List.replicate
          ((chebpolyfit g.values).length - (chebpolyfit f.values).length) 0), ?_, ?_, ?_⟩
      · rw [add_eq f g h]
        simp only [if_pos hd]
      · rw [zip_pad_length _ _ (by rw [hfl, hgl]; omega), hgl]
        omega
      · intro k
        rw [zip_pad_getD _ _ (by rw [hfl, hgl]; omega) k]
        ring
    · refine ⟨List.zipWith (· + ·) (chebpolyfit f.values)
        (chebpolyfit g.values ++ List.replicate
          ((chebpolyfit f.values).length - (chebpolyfit g.values).length) 0), ?_, ?_, ?_⟩
      · rw [add_eq f g h]
        simp only [if_neg hd]
      · rw [zip_pad_length _ _ (by rw [hfl, hgl]; omega), hfl]
        omega
      · intro k
        rw [zip_pad_getD _ _ (by rw [hfl, hgl]; omega) k]

/-- Witness for C5: the mismatch branch at two concrete `Fun`s, and the
matching branch at a concrete pair on the same domain. -/
theorem add_domain_spec_witness :
    Fun.add (Fun.make [1] (-1, 1) none) (Fun.make [1] (0, 1) none)
        = .error (.domainMismatch (-1, 1) (0, 1))
    ∧ ∃ cs : List ℝ,
        Fun.add (Fun.make [2] (-1, 1) none) (Fun.make [3] (-1, 1) none)
          = .ok (Fun.from_chebcoeff cs (-1, 1) true
              (max (Fun.make [2] (-1, 1) none).vscale (Fun.make [3] (-1, 1) none).vscale))
        ∧ cs.length = 1
        ∧ ∀ k, cs.getD k 0 = (chebpolyfit [2]).getD k 0 + (chebpolyfit [3]).getD k 0 := by
  constructor
  · exact ((add_domain_spec (Fun.make [1] (-1, 1) none) (Fun.make [1] (0, 1) none)).1 (by
      intro hsd
      have h1 : |(-1 : ℝ) - 0| ≤ 1e-14 + 1e-14 * |(0 : ℝ)| := hsd.1
      norm_num at h1)).1
  · obtain ⟨cs, h1, h2, h3⟩ := (add_domain_spec (Fun.make [2] (-1, 1) none)
      (Fun.make [3] (-1, 1) none)).2 (by
        constructor
        · have : |(-1 : ℝ) - -1| ≤ 1e-14 + 1e-14 * |(-1 : ℝ)| := by norm_num
          exact this
        · have : |(1 : ℝ) - 1| ≤ 1e-14 + 1e-14 * |(1 : ℝ)| := by norm_num
          exact this)
    exact ⟨cs, h1, h2, h3⟩

/-! ## Claim C1: the dichotomy loop -/

theorem dichotomyGo_ok (f : ℝ → ℝ) (r : Bool) :
    ∀ fuel k k0, k ≤ k0 → k0 - k < fuel → tailOK f k0 →
      (∀ j, k ≤ j → j < k0 → ¬ tailOK f j) →
      dichotomyGo f r fuel k = .ok (dichotomy_coeffs f k0) := by
  intro fuel
  induction fuel using Nat.strong_induction_on with
  | _ fuel ih =>
    intro k k0 hk hlt hok hmin
    rcases eq_or_ne k k0 with rfl | hne
    · rw [dichotomyGo.eq_def, if_pos hok]
    · have hnk : ¬ tailOK f k := hmin k (le_refl k) (by omega)
      obtain ⟨fuel', rfl⟩ : ∃ fuel', fuel = fuel' + 2 := ⟨fuel - 2, by omega⟩
      rw [dichotomyGo.eq_def, if_neg hnk]
      exact ih (fuel' + 1) (by omega) (k + 1) k0 (by omega) (by omega) hok
        (fun j h1 h2 => hmin j (by omega) h2)

theorem dichotomyGo_error (f : ℝ → ℝ) :
    ∀ fuel k, 1 ≤ fuel → (∀ j, k ≤ j → j < k + fuel → ¬ tailOK f j) →
      dichotomyGo f true fuel k
        = .error (dichotomy_last f (k + fuel - 1), dichotomy_bnd f (k + fuel - 1)) := by
  intro fuel
  induction fuel using Nat.strong_induction_on with
  | _ fuel ih =>
    intro k hfuel hall
    have hnk : ¬ tailOK f k := hall k (le_refl k) (by omega)
    rcases eq_or_ne fuel 1 with rfl | hne
    · rw [dichotomyGo.eq_def, if_neg hnk]
      simp only [Nat.add_sub_cancel]
      rfl
    · obtain ⟨fuel', rfl⟩ : ∃ fuel', fuel = fuel' + 2 := ⟨fuel - 2, by omega⟩
      rw [dichotomyGo.eq_def, if_neg hnk]
      have hrec := ih (fuel' + 1) (by omega) (k + 1) (by omega)
        (fun j h1 h2 => hall j (by omega) (by omega))
      rw [show k + 1 + (fuel' + 1) - 1 = k + (fuel' + 2) - 1 by omega] at hrec
      exact hrec

/-- C1: for `kmin < kmax`, `dichotomy(f, kmin, kmax)` returns the coefficient
vector of the first `k` in `kmin..kmax-1` whose last two coefficient
magnitudes are below the threshold `128 * emach * max |coeffs|`; if no `k`
in the range passes the test and convergence is required, it raises
`NoConvergence` carrying the last-checked tail magnitudes and threshold. -/
theorem dichotomy_spec (f : ℝ → ℝ) (kmin kmax : ℕ) (raiseNC : Bool) (h : kmin < kmax) :
    (∀ k0, kmin ≤ k0 → k0 < kmax → tailOK f k0 →
        (∀ k, kmin ≤ k → k < k0 → ¬ tailOK f k) →
        dichotomy f kmin kmax raiseNC = .ok (dichotomy_coeffs f k0))
    ∧ ((∀ k, kmin ≤ k → k < kmax → ¬ tailOK f k) →
        dichotomy f kmin kmax true
          = .error (dichotomy_last f (kmax - 1), dichotomy_bnd f (kmax - 1))) := by
  constructor
  · intro k0 h1 h2 h3 h4
    rw [dichotomy]
    exact dichotomyGo_ok f raiseNC (kmax - kmin) kmin k0 h1 (by omega) h3 h4
  · intro hall
    rw [dichotomy]
    have hrec := dichotomyGo_error f (kmax - kmin) kmin (by omega)
      (fun j ha hb => hall j ha (by omega))
    rw [show kmin + (kmax - kmin) - 1 = kmax - 1 by omega] at hrec
    exact hrec

theorem interpolation_points_length (N : ℕ) : (interpolation_points N).length = N := by
  rw [interpolation_points]
  rcases eq_or_ne N 1 with rfl | h1
  · rw [if_pos rfl]
    rfl
  · rw [if_neg h1, List.length_ofFn]

theorem sample_function_zero (N : ℕ) :
    sample_function (fun _ => (0 : ℝ)) N = List.replicate (N + 1) 0 := by
  rw [sample_function, List.map_const', interpolation_points_length]

theorem chebpolyfit_replicate_zero (m : ℕ) :
    chebpolyfit (List.replicate m (0 : ℝ)) = List.replicate m 0 := by
  rcases eq_or_ne m 1 with rfl | hm1
  · rw [chebpolyfit, if_pos (by simp)]
  rcases Nat.lt_or_ge m 2 with hm | hm
  · have hm0 : m = 0 := by omega
    subst hm0
    rfl
  · have hmem : ∀ x ∈ even_data (List.replicate m (0 : ℝ)), x = 0 := by
      intro x hx
      rw [even_data] at hx
      rcases List.mem_append.mp hx with hx | hx
      · exact List.eq_of_mem_replicate hx
      · rw [List.mem_reverse] at hx
        exact List.eq_of_mem_replicate
          (List.drop_subset 1 _ ((List.dropLast_sublist _).subset hx))
    apply List.ext_getElem
    · rw [chebpolyfit_length]
    intro i hi1 hi2
    rw [← List.getD_eq_getElem _ (0 : ℝ) hi1, ← List.getD_eq_getElem _ (0 : ℝ) hi2]
    have hi : i < m := by
      rw [chebpolyfit_length, List.length_replicate] at hi1
      exact hi1
    rw [chebpolyfit_getD (List.replicate m 0) (m - 1) (by rw [List.length_replicate]; omega)
      (by omega) i (by omega)]
    have hS : dftS (even_data ((List.replicate m (0 : ℝ)).map Complex.ofReal)) i = 0 := by
      rw [dftS]
      apply Finset.sum_eq_zero
      intro k _
      have hz : (even_data ((List.replicate m (0 : ℝ)).map Complex.ofReal)).getD k 0 = 0 := by
        rw [even_data_map, getD_map_zero Complex.ofReal (by simp) _ k]
        rcases Nat.lt_or_ge k (even_data (List.replicate m (0 : ℝ))).length with hkl | hkl
        · rw [List.getD_eq_getElem _ _ hkl,
            hmem _ (List.getElem_mem hkl)]
          simp
        · rw [List.getD_eq_default _ _ hkl]
          simp
      rw [hz, zero_mul]
    rw [hS]
    rw [List.getD_eq_getElem _ _ (by rw [List.length_replicate]; omega),
      List.getElem_replicate]
    simp

theorem tailOK_zero : tailOK (fun _ => (0 : ℝ)) 2 := by
  intro x hx
  rw [dichotomy_last, dichotomy_coeffs, show (2 : ℕ) ^ 2 = 4 by norm_num,
    sample_function_zero, show (4 : ℕ) + 1 = 5 by norm_num, chebpolyfit_replicate_zero] at hx
  have hx0 : x = 0 := by
    rw [List.length_replicate, List.drop_replicate, List.map_replicate] at hx
    simpa using List.eq_of_mem_replicate hx
  rw [hx0, dichotomy_bnd, dichotomy_coeffs, show (2 : ℕ) ^ 2 = 4 by norm_num,
    sample_function_zero, show (4 : ℕ) + 1 = 5 by norm_num, chebpolyfit_replicate_zero]
  have hmax5 : maxAbs (List.replicate 5 (0 : ℝ)) = 0 := by
    rw [maxAbs]
    norm_num [List.replicate_succ]
  rw [hmax5, threshold]
  norm_num

/-- Witness for C1: a constant function is accepted at the very first `k`. -/
theorem dichotomy_spec_witness :
    dichotomy (fun _ => (0 : ℝ)) 2 3 true = .ok (List.replicate 5 0) := by
  have h := (dichotomy_spec (fun _ => (0 : ℝ)) 2 3 true (by norm_num)).1 2 (le_refl 2)
    (by norm_num) tailOK_zero (fun k h1 h2 => absurd h2 (by omega))
  rw [h, dichotomy_coeffs, show (2 : ℕ) ^ 2 = 4 by norm_num, sample_function_zero,
    show (4 : ℕ) + 1 = 5 by norm_num, chebpolyfit_replicate_zero]

/-! ## Claim C3: `roots` on the identity Fun hits an IndexError -/

theorem expk_two_neg_one : expk 2 (-1) = -1 := by
  rw [expk, show 2 * (Real.pi : ℂ) * Complex.I * ((-1 : ℤ) : ℂ) / ((2 : ℕ) : ℂ)
      = -(Real.pi * Complex.I) by push_cast; ring, Complex.exp_neg, Complex.exp_pi_mul_I]
  norm_num

/-- The Chebyshev coefficients of the identity data `[1, -1]` are `[0, 1]`. -/
theorem chebpolyfit_one_neg_one : chebpolyfit [1, -1] = [0, 1] := by
  have hmap : (([1, -1] : List ℝ).map Complex.ofReal) = [1, -1] := by simp
  have hed : even_data ([(1 : ℂ), -1]) = [1, -1] := by simp [even_data]
  have hS0 : dftS [(1 : ℂ), -1] 0 = 0 := by
    rw [dftS, show ([(1 : ℂ), -1] : List ℂ).length = 2 from rfl,
      Finset.sum_range_succ, Finset.sum_range_succ, Finset.sum_range_zero]
    norm_num [expk_zero]
  have hS1 : dftS [(1 : ℂ), -1] 1 = 2 := by
    rw [dftS, show ([(1 : ℂ), -1] : List ℂ).length = 2 from rfl,
      Finset.sum_range_succ, Finset.sum_range_succ, Finset.sum_range_zero]
    norm_num [expk_zero, expk_two_neg_one]
  apply List.ext_getElem
  · rw [chebpolyfit_length]
    rfl
  intro i hi1 hi2
  rw [← List.getD_eq_getElem _ (0 : ℝ) hi1, ← List.getD_eq_getElem _ (0 : ℝ) hi2]
  have hi : i < 2 := by
    rw [chebpolyfit_length] at hi1
    simpa using hi1
  rw [chebpolyfit_getD [1, -1] 1 (by simp) (le_refl 1) i (by omega), hmap, hed]
  interval_cases i
  · rw [if_pos (Or.inl rfl), hS0]
    norm_num
  · rw [if_pos (Or.inr rfl), hS1]
    norm_num

/-- C3 (code bug): the identity Fun on `[-1,1]` has the two values `[1, -1]`
and the Chebyshev coefficients `[0, 1]`, so inside `roots()` the colleague
matrix setup runs `v = zeros_like(ak[:-1]); v[1] = 0.5` on a length-1 array,
a numpy `IndexError` (modelled by `none`) — `roots()` aborts for every
eigenvalue solver instead of returning `[0.0]` as the specification states. -/
theorem roots_identity_index_error
    (eig : (m : ℕ) → Matrix (Fin m) (Fin m) ℝ → List ℂ) :
    (identity (-1, 1)).values = [1, -1]
    ∧ Fun.chebyshev_coefficients (identity (-1, 1)) = [0, 1]
    ∧ roots_low eig (identity (-1, 1)) = none := by
  refine ⟨rfl, chebpolyfit_one_neg_one, ?_⟩
  rw [roots_low]
  rw [show chebpolyfit (identity (-1, 1)).values = [0, 1] from chebpolyfit_one_neg_one]
  rfl

/-- Witness for C10 at `n = 2`, `k = 1`. -/
theorem basis_spec_witness :
    (basis 2).values.getD 1 0 = (-1 : ℝ) ^ 1
    ∧ (basis 2).values.getD 1 0
      = (Polynomial.Chebyshev.T ℝ (2 : ℤ)).eval ((interpolation_points 3).getD 1 0) :=
  ⟨((basis_spec 2).2.2 (by norm_num)).2 1 (by norm_num) |>.1,
   ((basis_spec 2).2.2 (by norm_num)).2 1 (by norm_num) |>.2⟩

/-! ## Claim C6: evaluation at the left endpoint, and the integrate pipeline -/

theorem indexOf_spec {α : Type*} [DecidableEq α] :
    ∀ (l : List α) (x : α) (i : ℕ) (h1 : i < l.length),
      l[i] = x → (∀ j (hj : j < l.length), j < i → l[j] ≠ x) → l.indexOf x = i := by
  intro l
  induction l with
  | nil =>
    intro x i h1 h2 h3
    simp at h1
  | cons hd tl ih =>
    intro x i h1 h2 h3
    cases i with
    | zero =>
      rw [List.getElem_cons_zero] at h2
      rw [List.indexOf_cons_eq tl h2]
    | succ i =>
      have hne : hd ≠ x := by
        have h0 := h3 0 (by simp) (by omega)
        rw [List.getElem_cons_zero] at h0
        exact h0
      have hi1 : i < tl.length := by simpa using h1
      rw [List.getElem_cons_succ] at h2
      have harg : ∀ j (hj : j < tl.length), j < i → tl[j] ≠ x := by
        intro j hj hji
        have h4 := h3 (j + 1) (by simpa using hj) (by omega)
        rw [List.getElem_cons_succ] at h4
        exact h4
      rw [List.indexOf_cons_ne tl hne, ih x i hi1 h2 harg]

theorem interpolation_points_getD (N : ℕ) (h2 : 2 ≤ N) (k : ℕ) (hk : k < N) :
    (interpolation_points N).getD k 0 = Real.cos ((k : ℝ) * Real.pi / ((N : ℝ) - 1)) := by
  rw [interpolation_points, if_neg (by omega)]
  rw [List.getD_eq_getElem _ (0 : ℝ) (by rw [List.length_ofFn]; exact hk), List.getElem_ofFn]

/-- Among the Chebyshev nodes of `interpolation_points N` (for `N ≥ 2`), the
value `-1` is attained exactly at the last index `N - 1`. -/
theorem cos_node_eq_neg_one_iff (N : ℕ) (h2 : 2 ≤ N) (k : ℕ) (hk : k < N) :
    Real.cos ((k : ℝ) * Real.pi / ((N : ℝ) - 1)) = -1 ↔ k = N - 1 := by
  have hc : ((N - 1 : ℕ) : ℝ) = (N : ℝ) - 1 := by
    rw [Nat.cast_sub (by omega : 1 ≤ N), Nat.cast_one]
  have hN1 : (0 : ℝ) < (N : ℝ) - 1 := by
    have h2r : (2 : ℝ) ≤ (N : ℝ) := by exact_mod_cast h2
    linarith
  constructor
  · intro hcos
    have hkle : (k : ℝ) ≤ (N : ℝ) - 1 := by
      rw [← hc]
      exact_mod_cast (by omega : k ≤ N - 1)
    have hθ0 : 0 ≤ (k : ℝ) * Real.pi / ((N : ℝ) - 1) :=
      div_nonneg (by positivity) hN1.le
    have hθπ : (k : ℝ) * Real.pi / ((N : ℝ) - 1) ≤ Real.pi := by
      rw [div_le_iff hN1]
      nlinarith [Real.pi_pos]
    have hinj := Real.injOn_cos ⟨hθ0, hθπ⟩ ⟨Real.pi_pos.le, le_refl Real.pi⟩
      (by rw [hcos, Real.cos_pi])
    have hm : (k : ℝ) * Real.pi = ((N : ℝ) - 1) * Real.pi := by
      rw [div_eq_iff hN1.ne'] at hinj
      linarith [hinj]
    have hkr : (k : ℝ) = (N : ℝ) - 1 := mul_right_cancel₀ Real.pi_ne_zero hm
    rw [← hc] at hkr
    exact_mod_cast hkr
  · intro hk1
    rw [hk1, hc, mul_comm, mul_div_assoc, div_self hN1.ne', mul_one]
    exact Real.cos_pi

/-- `Fun.__call__` at the left endpoint of the domain returns the last stored
interpolation value (the barycentric interpolator hits the node `-1`). -/
theorem eval_left_endpoint (f : Fun) (a b : ℝ) (hdom : f.domain = (a, b)) (hab : a < b)
    (hlen : 1 ≤ f.values.length) :
    Fun.eval f a = f.values.getD (f.values.length - 1) 0 := by
  have ht : ab_to_ui f.domain a = -1 := by
    rw [hdom]
    show (2 * a - (a, b).1 - (a, b).2) / ((a, b).2 - (a, b).1) = -1
    rw [div_eq_iff (sub_ne_zero.mpr hab.ne')]
    ring
  rw [Fun.eval, ht]
  rcases eq_or_ne f.values.length 1 with h1 | h1
  · have hs : f.size = 1 := h1
    rw [hs, h1]
    rw [interpolation_points, if_pos rfl]
    have hw : bary_weights 1 = [1 / 4] := by
      rw [bary_weights]
      norm_num [mapAt, List.ofFn_succ, List.ofFn_zero]
    rw [hw, bary_eval, if_neg (show (-1 : ℝ) ∉ ([0] : List ℝ) by norm_num)]
    rw [show ([0] : List ℝ).length = 1 from rfl, Finset.sum_range_one, Finset.sum_range_one]
    simp only [List.getD_cons_zero]
    norm_num
    ring
  · have hN2 : 2 ≤ f.values.length := by omega
    have hsz : f.size = f.values.length := rfl
    rw [hsz]
    have hlast : (interpolation_points f.values.length).getD (f.values.length - 1) 0 = -1 := by
      rw [interpolation_points_getD _ hN2 _ (by omega)]
      exact (cos_node_eq_neg_one_iff _ hN2 _ (by omega)).mpr rfl
    have hltl : f.values.length - 1 < (interpolation_points f.values.length).length := by
      rw [interpolation_points_length]
      omega
    have hmem : (-1 : ℝ) ∈ interpolation_points f.values.length := by
      rw [← hlast, List.getD_eq_getElem _ (0 : ℝ) hltl]
      exact List.getElem_mem hltl
    rw [bary_eval, if_pos hmem]
    have hidx : (interpolation_points f.values.length).indexOf (-1 : ℝ)
        = f.values.length - 1 := by
      apply indexOf_spec _ _ _ hltl
      · rw [← List.getD_eq_getElem _ (0 : ℝ) hltl]
        exact hlast
      · intro j hj hji
        rw [← List.getD_eq_getElem _ (0 : ℝ) hj]
        have hjN : j < f.values.length := by
          rw [interpolation_points_length] at hj
          exact hj
        rw [interpolation_points_getD _ hN2 _ hjN]
        intro hcon
        have hje := (cos_node_eq_neg_one_iff _ hN2 _ hjN).mp hcon
        omega
    rw [hidx]

theorem maxAbs_singleton (x : ℝ) : maxAbs [x] = |x| := by
  rw [maxAbs]
  simp only [List.map_cons, List.map_nil, List.foldr_cons, List.foldr_nil]
  exact max_eq_left (abs_nonneg x)

theorem sameDomain_of_eq (f g : Fun) (h : f.domain = g.domain) : sameDomain f g := by
  rw [sameDomain, h]
  constructor
  · rw [sub_self, abs_zero]
    positivity
  · rw [sub_self, abs_zero]
    positivity

theorem chebpolyfit_singleton (x : ℝ) : chebpolyfit [x] = [x] := by
  rw [chebpolyfit, if_pos (show ([x] : List ℝ).length = 1 from rfl)]

theorem cutoff_pos (coeffs : List ℝ) (vscale : ℝ) : 1 ≤ cutoff coeffs vscale := by
  by_cases h : ∃ i, i < coeffs.length ∧ threshold vscale ≤ |coeffs.getD i 0|
  · obtain ⟨i2, _, _, hcut2, _⟩ := (cutoff_spec coeffs vscale).1 h
    omega
  · push_neg at h
    rw [(cutoff_spec coeffs vscale).2 h]

/-- `cutoff` is `i + 1` when `i` is the last index reaching the threshold. -/
theorem cutoff_eq_of (coeffs : List ℝ) (vscale : ℝ) (i : ℕ) (hi : i < coeffs.length)
    (hth : threshold vscale ≤ |coeffs.getD i 0|)
    (hmax : ∀ j, i < j → j < coeffs.length → |coeffs.getD j 0| < threshold vscale) :
    cutoff coeffs vscale = i + 1 := by
  obtain ⟨i2, hi2, hth2, hcut2, hmax2⟩ := (cutoff_spec coeffs vscale).1 ⟨i, hi, hth⟩
  rcases lt_trichotomy i i2 with hlt | heq | hgt
  · exact absurd hth2 (not_le.mpr (hmax i2 hlt hi2))
  · rw [hcut2, heq]
  · exact absurd hth (not_le.mpr (hmax2 i hgt hi))

theorem from_chebcoeff_values (chebcoeff : List ℝ) (domain : ℝ × ℝ) (vscale : ℝ) :
    (Fun.from_chebcoeff chebcoeff domain true vscale).values
      = chebpolyval (chebcoeff.take (cutoff chebcoeff vscale)) := rfl

theorem from_chebcoeff_domain (chebcoeff : List ℝ) (domain : ℝ × ℝ) (prune : Bool)
    (vscale : ℝ) : (Fun.from_chebcoeff chebcoeff domain prune vscale).domain = domain := rfl

/-- `chebint` unfolded in the non-degenerate case. -/
theorem chebint_eq (c : List ℝ) (h : ¬ (c.length = 1 ∧ c.getD 0 0 = 0)) :
    chebint c = mapAt (List.ofFn fun i : Fin (c.length + 1) =>
        if i.1 = 0 then (0 : ℝ)
        else if i.1 = 1 then c.getD 0 0 - c.getD 2 0 / 2
        else c.getD (i.1 - 1) 0 / (2 * (i.1 : ℝ)) - c.getD (i.1 + 1) 0 / (2 * (i.1 : ℝ)))
      0 (fun x => x - chebval_at_zero (List.ofFn fun i : Fin (c.length + 1) =>
        if i.1 = 0 then (0 : ℝ)
        else if i.1 = 1 then c.getD 0 0 - c.getD 2 0 / 2
        else c.getD (i.1 - 1) 0 / (2 * (i.1 : ℝ)) - c.getD (i.1 + 1) 0 / (2 * (i.1 : ℝ)))) := by
  rw [chebint, if_neg h]

theorem chebint_length (c : List ℝ) (h : 1 ≤ c.length) : 1 ≤ (chebint c).length := by
  by_cases hc : c.length = 1 ∧ c.getD 0 0 = 0
  · rw [chebint, if_pos hc]
    exact h
  · rw [chebint_eq c hc, mapAt_length, List.length_ofFn]
    omega

theorem altsum_zip_pad (bcs a : List ℝ) (hab : a.length ≤ bcs.length) :
    ∑ i ∈ Finset.range bcs.length, (-1 : ℝ) ^ i
        * (List.zipWith (· + ·) bcs (a ++ List.replicate (bcs.length - a.length) 0)).getD i 0
      = (∑ i ∈ Finset.range bcs.length, (-1 : ℝ) ^ i * bcs.getD i 0)
        + ∑ i ∈ Finset.range bcs.length, (-1 : ℝ) ^ i * a.getD i 0 := by
  rw [← Finset.sum_add_distrib]
  refine Finset.sum_congr rfl fun i _ => ?_
  rw [zip_pad_getD bcs a hab i, mul_add]

theorem altsum_singleton (c : ℝ) (L : ℕ) (hL : 1 ≤ L) :
    ∑ i ∈ Finset.range L, (-1 : ℝ) ^ i * ([c] : List ℝ).getD i 0 = c := by
  rw [Finset.sum_eq_single_of_mem 0 (Finset.mem_range.mpr (by omega)) (fun j hj hj0 => by
    obtain ⟨j2, rfl⟩ : ∃ j2, j = j2 + 1 := ⟨j - 1, by omega⟩
    simp)]
  norm_num

/-- `Chebfun.integrate` unfolded: it always succeeds (the internal subtraction
compares identical domains) and returns `from_chebcoeff` of the shifted
coefficient vector with the vscale `max(antiderivative.vscale, |c|)`. -/
theorem integrate_eq (f : Fun) (hlen : 1 ≤ f.values.length) :
    integrate f = .ok (Fun.from_chebcoeff (integrate_chebsum f) f.domain true
      (integrate_new_vscale f)) := by
  classical
  set F := integrate_antiderivative f with hF
  have hsub : integrate f
      = Fun.add F (Fun.neg (Fun.make [Fun.eval F f.domain.1] F.domain none)) := rfl
  set NO := Fun.neg (Fun.make [Fun.eval F f.domain.1] F.domain none) with hNO
  set ic := (chebint (chebpolyfit f.values)).map
    (fun x => 0.5 * (f.domain.2 - f.domain.1) * x) with hic
  have hic_len : 1 ≤ ic.length := by
    rw [hic, List.length_map]
    exact chebint_length _ (by rw [chebpolyfit_length]; exact hlen)
  set pcs := ic.take (cutoff ic 1) with hpcs
  have hpcs_len : 1 ≤ pcs.length := by
    rw [hpcs, List.length_take]
    have h1 := cutoff_pos ic 1
    omega
  have hFval : F.values = chebpolyval pcs := from_chebcoeff_values ic f.domain 1
  have hrt : chebpolyfit F.values = pcs := by
    rw [hFval]
    exact chebpolyfit_chebpolyval pcs hpcs_len
  have hNOv : NO.values = [-(Fun.eval F f.domain.1)] := rfl
  have hsame : sameDomain F NO := sameDomain_of_eq F NO rfl
  have hadd := add_eq F NO hsame
  have hd : ¬ (0 < (NO.size : ℤ) - (F.size : ℤ)) := by
    have h1 : NO.size = 1 := rfl
    have h2 : F.size = pcs.length := by
      show F.values.length = pcs.length
      rw [hFval, chebpolyval_length]
    rw [h1, h2]
    omega
  simp only [if_neg hd] at hadd
  rw [hNOv, chebpolyfit_singleton, hrt] at hadd
  rw [show F.domain = f.domain from rfl] at hadd
  have hcs : integrate_chebsum f
      = List.zipWith (· + ·) pcs ([-(Fun.eval F f.domain.1)]
        ++ List.replicate (pcs.length - ([-(Fun.eval F f.domain.1)] : List ℝ).length) 0) := by
    have h0 : integrate_chebsum f
        = List.zipWith (· + ·) (chebpolyfit F.values) ([-(Fun.eval F f.domain.1)]
          ++ List.replicate ((chebpolyfit F.values).length - 1) 0) := rfl
    rw [h0, hrt]
    simp only [List.length_cons, List.length_nil, Nat.zero_add]
  have hnv : integrate_new_vscale f = max F.vscale NO.vscale := by
    have h1 : NO.vscale = |Fun.eval F f.domain.1| := by
      show maxAbs [-(Fun.eval F f.domain.1)] = |Fun.eval F f.domain.1|
      rw [maxAbs_singleton, abs_neg]
    rw [h1]
    rfl
  rw [hsub, hadd, ← hcs, ← hnv]

/-- The shifted coefficient vector inside `integrate` is nonempty, and its
alternating sum (the value of its Chebyshev series at `-1`) is exactly `0`. -/
theorem integrate_chebsum_facts (f : Fun) (a b : ℝ) (hdom : f.domain = (a, b)) (hab : a < b)
    (hlen : 1 ≤ f.values.length) :
    1 ≤ (integrate_chebsum f).length
    ∧ ∑ i ∈ Finset.range (integrate_chebsum f).length,
        (-1 : ℝ) ^ i * (integrate_chebsum f).getD i 0 = 0 := by
  classical
  set F := integrate_antiderivative f with hF
  set ic := (chebint (chebpolyfit f.values)).map
    (fun x => 0.5 * (f.domain.2 - f.domain.1) * x) with hic
  have hic_len : 1 ≤ ic.length := by
    rw [hic, List.length_map]
    exact chebint_length _ (by rw [chebpolyfit_length]; exact hlen)
  set pcs := ic.take (cutoff ic 1) with hpcs
  have hpcs_len : 1 ≤ pcs.length := by
    rw [hpcs, List.length_take]
    have h1 := cutoff_pos ic 1
    omega
  have hFval : F.values = chebpolyval pcs := from_chebcoeff_values ic f.domain 1
  have hFlen : F.values.length = pcs.length := by
    rw [hFval, chebpolyval_length]
  have hrt : chebpolyfit F.values = pcs := by
    rw [hFval]
    exact chebpolyfit_chebpolyval pcs hpcs_len
  have h1le : ([-(Fun.eval F f.domain.1)] : List ℝ).length ≤ pcs.length := by
    simp only [List.length_cons, List.length_nil]
    omega
  have hcs : integrate_chebsum f
      = List.zipWith (· + ·) pcs ([-(Fun.eval F f.domain.1)]
        ++ List.replicate (pcs.length - ([-(Fun.eval F f.domain.1)] : List ℝ).length) 0) := by
    have h0 : integrate_chebsum f
        = List.zipWith (· + ·) (chebpolyfit F.values) ([-(Fun.eval F f.domain.1)]
          ++ List.replicate ((chebpolyfit F.values).length - 1) 0) := rfl
    rw [h0, hrt]
    simp only [List.length_cons, List.length_nil, Nat.zero_add]
  have hzl : (integrate_chebsum f).length = pcs.length := by
    rw [hcs, zip_pad_length pcs _ h1le]
  have hceval : Fun.eval F f.domain.1
      = ∑ i ∈ Finset.range pcs.length, (-1 : ℝ) ^ i * pcs.getD i 0 := by
    rw [show f.domain.1 = a from by rw [hdom]]
    rw [eval_left_endpoint F a b (show F.domain = (a, b) from hdom) hab (by omega)]
    rw [hFval, chebpolyval_length, chebpolyval_last pcs hpcs_len]
  constructor
  · omega
  · rw [hcs, zip_pad_length pcs _ h1le, altsum_zip_pad pcs _ h1le,
      altsum_singleton (-(Fun.eval F f.domain.1)) pcs.length hpcs_len, hceval]
    ring

/-- C6 (amended): `integrate` never raises and returns an antiderivative `Fun`
whose value at the left endpoint `a` of the domain is `0` up to the
coefficients discarded by the final pruning step: whenever that final pruning
keeps the whole shifted coefficient vector (in particular whenever the cutoff
equals its length), the result evaluates to exactly `0` at `a`. -/
theorem integrate_left_endpoint_zero (f : Fun) (a b : ℝ) (hdom : f.domain = (a, b))
    (hab : a < b) (hlen : 1 ≤ f.values.length)
    (hnodrop : cutoff (integrate_chebsum f) (integrate_new_vscale f)
        = (integrate_chebsum f).length) :
    ∃ g : Fun, integrate f = .ok g ∧ Fun.eval g a = 0 := by
  refine ⟨_, integrate_eq f hlen, ?_⟩
  obtain ⟨hcs_len, hcs_alt⟩ := integrate_chebsum_facts f a b hdom hab hlen
  have hgv : (Fun.from_chebcoeff (integrate_chebsum f) f.domain true
      (integrate_new_vscale f)).values = chebpolyval (integrate_chebsum f) := by
    rw [from_chebcoeff_values, hnodrop, List.take_length]
  have hgd : (Fun.from_chebcoeff (integrate_chebsum f) f.domain true
      (integrate_new_vscale f)).domain = (a, b) :=
    (from_chebcoeff_domain _ _ _ _).trans hdom
  rw [eval_left_endpoint _ a b hgd hab (by rw [hgv, chebpolyval_length]; omega)]
  rw [hgv, chebpolyval_length, chebpolyval_last _ hcs_len]
  exact hcs_alt

theorem wit_tmp : (List.ofFn fun i : Fin ([(1 : ℝ)].length + 1) =>
      if i.1 = 0 then (0 : ℝ)
      else if i.1 = 1 then [(1 : ℝ)].getD 0 0 - [(1 : ℝ)].getD 2 0 / 2
      else [(1 : ℝ)].getD (i.1 - 1) 0 / (2 * (i.1 : ℝ))
        - [(1 : ℝ)].getD (i.1 + 1) 0 / (2 * (i.1 : ℝ)))
    = [0, 1] := by
  apply List.ext_getElem
  · rw [List.length_ofFn]
    rfl
  intro i hi1 hi2
  rw [List.getElem_ofFn]
  have hi : i < 2 := by
    rw [List.length_ofFn] at hi1
    simpa using hi1
  interval_cases i <;>
    norm_num [List.getD_cons_zero, List.getD_cons_succ, List.getD_nil]

theorem wit_cv0 : chebval_at_zero [(0 : ℝ), 1] = 0 := by
  rw [chebval_at_zero, show ([(0 : ℝ), 1]).length = 2 from rfl, Finset.sum_range_succ,
    Finset.sum_range_one]
  norm_num [List.getD_cons_zero, List.getD_cons_succ]

theorem wit_chebint : chebint [(1 : ℝ)] = [0, 1] := by
  rw [chebint_eq _ (by norm_num [List.getD_cons_zero]), wit_tmp]
  simp only [wit_cv0, mapAt]
  norm_num [List.getD_cons_zero, List.set_cons_zero]

/-- The final pruning inside `integrate` keeps everything for the constant-1
`Fun` on `[-1, 1]`. -/
theorem wit_nodrop :
    cutoff (integrate_chebsum (Fun.make [1] (-1, 1) none))
        (integrate_new_vscale (Fun.make [1] (-1, 1) none))
      = (integrate_chebsum (Fun.make [1] (-1, 1) none)).length := by
  set f0 : Fun := Fun.make [1] (-1, 1) none with hf0
  have hic0 : (chebint (chebpolyfit f0.values)).map
      (fun x => 0.5 * (f0.domain.2 - f0.domain.1) * x) = [0, 1] := by
    show (chebint (chebpolyfit [(1 : ℝ)])).map (fun x => 0.5 * ((1 : ℝ) - -1) * x) = [0, 1]
    rw [chebpolyfit_singleton, wit_chebint]
    norm_num
  have hF0v0 : (integrate_antiderivative f0).values
      = chebpolyval (((chebint (chebpolyfit f0.values)).map
          (fun x => 0.5 * (f0.domain.2 - f0.domain.1) * x)).take
        (cutoff ((chebint (chebpolyfit f0.values)).map
          (fun x => 0.5 * (f0.domain.2 - f0.domain.1) * x)) 1)) :=
    from_chebcoeff_values _ f0.domain 1
  rw [hic0] at hF0v0
  have hcut01 : cutoff [(0 : ℝ), 1] 1 = 2 := by
    have h := cutoff_eq_of [(0 : ℝ), 1] 1 1 (by norm_num)
      (by
        simp only [List.getD_cons_succ, List.getD_cons_zero]
        rw [abs_one]
        norm_num [threshold, emach])
      (by
        intro j hj1 hj2
        simp only [List.length_cons, List.length_nil] at hj2
        omega)
    omega
  rw [hcut01, show (([0, 1] : List ℝ)).take 2 = [0, 1] from rfl] at hF0v0
  have hl0 : (integrate_antiderivative f0).values.length = 2 := by
    rw [hF0v0, chebpolyval_length]
    rfl
  have hc0 : Fun.eval (integrate_antiderivative f0) f0.domain.1 = -1 := by
    have hd0 : (integrate_antiderivative f0).domain = ((-1 : ℝ), 1) := rfl
    rw [show f0.domain.1 = (-1 : ℝ) from rfl]
    rw [eval_left_endpoint _ (-1) 1 hd0 (by norm_num) (by omega)]
    rw [hF0v0, chebpolyval_length, chebpolyval_last _ (by norm_num)]
    rw [show ([0, 1] : List ℝ).length = 2 from rfl, Finset.sum_range_succ, Finset.sum_range_one]
    norm_num [List.getD_cons_succ, List.getD_cons_zero]
  have hrt0 : chebpolyfit (integrate_antiderivative f0).values = [0, 1] := by
    rw [hF0v0]
    exact chebpolyfit_chebpolyval [0, 1] (by norm_num)
  have hcs0 : integrate_chebsum f0 = [1, 1] := by
    have h0 : integrate_chebsum f0
        = List.zipWith (· + ·) (chebpolyfit (integrate_antiderivative f0).values)
          ([-(Fun.eval (integrate_antiderivative f0) f0.domain.1)]
            ++ List.replicate
              ((chebpolyfit (integrate_antiderivative f0).values).length - 1) 0) := rfl
    rw [h0, hrt0, hc0]
    norm_num
  have hnv0 : integrate_new_vscale f0 = 1 := by
    have h0 : integrate_new_vscale f0
        = max (integrate_antiderivative f0).vscale
          |Fun.eval (integrate_antiderivative f0) f0.domain.1| := rfl
    rw [h0, hc0, show (integrate_antiderivative f0).vscale = 1 from rfl]
    norm_num
  rw [hcs0, hnv0]
  have h := cutoff_eq_of [(1 : ℝ), 1] 1 1 (by norm_num)
    (by
      simp only [List.getD_cons_succ, List.getD_cons_zero]
      rw [abs_one]
      norm_num [threshold, emach])
    (by
      intro j hj1 hj2
      simp only [List.length_cons, List.length_nil] at hj2
      omega)
  rw [h]
  rfl

/-- Witness for the amended C6 at the constant-1 `Fun` on `[-1, 1]`. -/
theorem integrate_left_endpoint_zero_witness :
    ∃ g : Fun, integrate (Fun.make [1] (-1, 1) none) = .ok g ∧ Fun.eval g (-1) = 0 :=
  integrate_left_endpoint_zero (Fun.make [1] (-1, 1) none) (-1) 1 rfl (by norm_num)
    (Nat.le_refl 1) wit_nodrop

theorem cex_tmp : (List.ofFn fun i : Fin ([(1000 : ℝ), 0, 0, 1 / 2 ^ 40].length + 1) =>
      if i.1 = 0 then (0 : ℝ)
      else if i.1 = 1 then [(1000 : ℝ), 0, 0, 1 / 2 ^ 40].getD 0 0
        - [(1000 : ℝ), 0, 0, 1 / 2 ^ 40].getD 2 0 / 2
      else [(1000 : ℝ), 0, 0, 1 / 2 ^ 40].getD (i.1 - 1) 0 / (2 * (i.1 : ℝ))
        - [(1000 : ℝ), 0, 0, 1 / 2 ^ 40].getD (i.1 + 1) 0 / (2 * (i.1 : ℝ)))
    = [0, 1000, -(1 / 2 ^ 42), 0, 1 / 2 ^ 43] := by
  apply List.ext_getElem
  · rw [List.length_ofFn]
    rfl
  intro i hi1 hi2
  rw [List.getElem_ofFn]
  have hi : i < 5 := by
    rw [List.length_ofFn] at hi1
    simpa using hi1
  interval_cases i <;>
    norm_num [List.getD_cons_zero, List.getD_cons_succ, List.getD_nil]

theorem cex_cv0 : chebval_at_zero [(0 : ℝ), 1000, -(1 / 2 ^ 42), 0, 1 / 2 ^ 43]
    = 3 / 2 ^ 43 := by
  rw [chebval_at_zero,
    show ([(0 : ℝ), 1000, -(1 / 2 ^ 42), 0, 1 / 2 ^ 43]).length = 5 from rfl,
    Finset.sum_range_succ, Finset.sum_range_succ, Finset.sum_range_succ, Finset.sum_range_succ,
    Finset.sum_range_one]
  norm_num [List.getD_cons_zero, List.getD_cons_succ]

theorem cex_chebint : chebint [(1000 : ℝ), 0, 0, 1 / 2 ^ 40]
    = [-(3 / 2 ^ 43), 1000, -(1 / 2 ^ 42), 0, 1 / 2 ^ 43] := by
  rw [chebint_eq _ (by norm_num), cex_tmp]
  simp only [cex_cv0, mapAt]
  norm_num [List.getD_cons_zero, List.set_cons_zero]

/-- C6 counterexample to the original claim: for the `Fun` with Chebyshev
coefficients `[1000, 0, 0, 2^-40]` on `[-1, 1]`, `integrate` succeeds but the
antiderivative evaluates to `2^-43`, not exactly `0`, at the left endpoint:
the final pruning (at the enlarged vscale `max(vscale, |F(a)|)`) drops the
small trailing coefficients after the constant shift has been computed from
the unpruned vector. -/
theorem integrate_left_endpoint_counterexample :
    ∃ g : Fun,
      integrate (Fun.make (chebpolyval [1000, 0, 0, 1 / 2 ^ 40]) (-1, 1) none) = .ok g
      ∧ Fun.eval g (-1) = 1 / 2 ^ 43 ∧ Fun.eval g (-1) ≠ 0 := by
  set f1 : Fun := Fun.make (chebpolyval [1000, 0, 0, 1 / 2 ^ 40]) (-1, 1) none with hf1
  have hlen1 : 1 ≤ f1.values.length := by
    show 1 ≤ (chebpolyval [(1000 : ℝ), 0, 0, 1 / 2 ^ 40]).length
    rw [chebpolyval_length]
    norm_num
  refine ⟨_, integrate_eq f1 hlen1, ?_⟩
  have hcf1 : chebpolyfit f1.values = [1000, 0, 0, 1 / 2 ^ 40] := by
    show chebpolyfit (chebpolyval [(1000 : ℝ), 0, 0, 1 / 2 ^ 40]) = [1000, 0, 0, 1 / 2 ^ 40]
    exact chebpolyfit_chebpolyval _ (by norm_num)
  have hic1 : (chebint (chebpolyfit f1.values)).map
      (fun x => 0.5 * (f1.domain.2 - f1.domain.1) * x)
      = [-(3 / 2 ^ 43), 1000, -(1 / 2 ^ 42), 0, 1 / 2 ^ 43] := by
    rw [hcf1, cex_chebint]
    show ([-(3 / 2 ^ 43), 1000, -(1 / 2 ^ 42), 0, (1 / 2 ^ 43 : ℝ)]).map
        (fun x => 0.5 * ((1 : ℝ) - -1) * x)
      = [-(3 / 2 ^ 43), 1000, -(1 / 2 ^ 42), 0, 1 / 2 ^ 43]
    norm_num
  have hF1v0 : (integrate_antiderivative f1).values
      = chebpolyval (((chebint (chebpolyfit f1.values)).map
          (fun x => 0.5 * (f1.domain.2 - f1.domain.1) * x)).take
        (cutoff ((chebint (chebpolyfit f1.values)).map
          (fun x => 0.5 * (f1.domain.2 - f1.domain.1) * x)) 1)) :=
    from_chebcoeff_values _ f1.domain 1
  rw [hic1] at hF1v0
  have hcut5 : cutoff [-(3 / 2 ^ 43), (1000 : ℝ), -(1 / 2 ^ 42), 0, 1 / 2 ^ 43] 1 = 5 := by
    have h := cutoff_eq_of [-(3 / 2 ^ 43), (1000 : ℝ), -(1 / 2 ^ 42), 0, 1 / 2 ^ 43] 1 4
      (by norm_num)
      (by
        simp only [List.getD_cons_succ, List.getD_cons_zero]
        rw [abs_of_nonneg (by positivity : (0 : ℝ) ≤ 1 / 2 ^ 43)]
        norm_num [threshold, emach])
      (by
        intro j hj1 hj2
        simp only [List.length_cons, List.length_nil] at hj2
        omega)
    omega
  rw [hcut5, show ([-(3 / 2 ^ 43), (1000 : ℝ), -(1 / 2 ^ 42), 0, 1 / 2 ^ 43]).take 5
      = [-(3 / 2 ^ 43), (1000 : ℝ), -(1 / 2 ^ 42), 0, 1 / 2 ^ 43] from rfl] at hF1v0
  have hl1 : (integrate_antiderivative f1).values.length = 5 := by
    rw [hF1v0, chebpolyval_length]
    rfl
  have hc1 : Fun.eval (integrate_antiderivative f1) f1.domain.1 = -(1000 + 1 / 2 ^ 41) := by
    have hd1 : (integrate_antiderivative f1).domain = ((-1 : ℝ), 1) := rfl
    rw [show f1.domain.1 = (-1 : ℝ) from rfl]
    rw [eval_left_endpoint _ (-1) 1 hd1 (by norm_num) (by omega)]
    rw [hF1v0, chebpolyval_length, chebpolyval_last _ (by norm_num)]
    rw [show ([-(3 / 2 ^ 43), (1000 : ℝ), -(1 / 2 ^ 42), 0, 1 / 2 ^ 43]).length = 5 from rfl,
      Finset.sum_range_succ, Finset.sum_range_succ, Finset.sum_range_succ,
      Finset.sum_range_succ, Finset.sum_range_one]
    norm_num [List.getD_cons_succ, List.getD_cons_zero]
  have hrt1 : chebpolyfit (integrate_antiderivative f1).values
      = [-(3 / 2 ^ 43), (1000 : ℝ), -(1 / 2 ^ 42), 0, 1 / 2 ^ 43] := by
    rw [hF1v0]
    exact chebpolyfit_chebpolyval _ (by norm_num)
  have hcs1 : integrate_chebsum f1
      = [1000 + 1 / 2 ^ 43, (1000 : ℝ), -(1 / 2 ^ 42), 0, 1 / 2 ^ 43] := by
    have h0 : integrate_chebsum f1
        = List.zipWith (· + ·) (chebpolyfit (integrate_antiderivative f1).values)
          ([-(Fun.eval (integrate_antiderivative f1) f1.domain.1)]
            ++ List.replicate
              ((chebpolyfit (integrate_antiderivative f1).values).length - 1) 0) := rfl
    rw [h0, hrt1, hc1,
      show List.replicate
          (([-(3 / 2 ^ 43), (1000 : ℝ), -(1 / 2 ^ 42), 0, 1 / 2 ^ 43]).length - 1) (0 : ℝ)
        = [0, 0, 0, 0] from rfl]
    norm_num
  have hnv1 : integrate_new_vscale f1 = 1000 + 1 / 2 ^ 41 := by
    have h0 : integrate_new_vscale f1
        = max (integrate_antiderivative f1).vscale
          |Fun.eval (integrate_antiderivative f1) f1.domain.1| := rfl
    rw [h0, hc1, show (integrate_antiderivative f1).vscale = 1 from rfl, abs_neg,
      abs_of_nonneg (by positivity : (0 : ℝ) ≤ 1000 + 1 / 2 ^ 41),
      max_eq_right (by norm_num)]
  have hcut2 : cutoff [1000 + 1 / 2 ^ 43, (1000 : ℝ), -(1 / 2 ^ 42), 0, 1 / 2 ^ 43]
      (1000 + 1 / 2 ^ 41) = 2 := by
    have h := cutoff_eq_of [1000 + 1 / 2 ^ 43, (1000 : ℝ), -(1 / 2 ^ 42), 0, 1 / 2 ^ 43]
      (1000 + 1 / 2 ^ 41) 1 (by norm_num)
      (by
        simp only [List.getD_cons_succ, List.getD_cons_zero]
        rw [abs_of_nonneg (by norm_num : (0 : ℝ) ≤ 1000)]
        norm_num [threshold, emach])
      (by
        intro j hj1 hj2
        simp only [List.length_cons, List.length_nil] at hj2
        interval_cases j
        · simp only [List.getD_cons_succ, List.getD_cons_zero]
          rw [abs_neg, abs_of_nonneg (by positivity : (0 : ℝ) ≤ 1 / 2 ^ 42)]
          norm_num [threshold, emach]
        · simp only [List.getD_cons_succ, List.getD_cons_zero]
          rw [abs_zero]
          norm_num [threshold, emach]
        · simp only [List.getD_cons_succ, List.getD_cons_zero]
          rw [abs_of_nonneg (by positivity : (0 : ℝ) ≤ 1 / 2 ^ 43)]
          norm_num [threshold, emach])
    omega
  have hgv1 : (Fun.from_chebcoeff (integrate_chebsum f1) f1.domain true
      (integrate_new_vscale f1)).values
      = chebpolyval [1000 + 1 / 2 ^ 43, (1000 : ℝ)] := by
    rw [from_chebcoeff_values, hcs1, hnv1, hcut2,
      show ([1000 + 1 / 2 ^ 43, (1000 : ℝ), -(1 / 2 ^ 42), 0, 1 / 2 ^ 43]).take 2
        = [1000 + 1 / 2 ^ 43, (1000 : ℝ)] from rfl]
  have hgd1 : (Fun.from_chebcoeff (integrate_chebsum f1) f1.domain true
      (integrate_new_vscale f1)).domain = ((-1 : ℝ), 1) :=
    (from_chebcoeff_domain _ _ _ _).trans (show f1.domain = ((-1 : ℝ), 1) from rfl)
  have heval : Fun.eval (Fun.from_chebcoeff (integrate_chebsum f1) f1.domain true
      (integrate_new_vscale f1)) (-1) = 1 / 2 ^ 43 := by
    rw [eval_left_endpoint _ (-1) 1 hgd1 (by norm_num)
      (by rw [hgv1, chebpolyval_length]; norm_num)]
    rw [hgv1, chebpolyval_length, chebpolyval_last _ (by norm_num)]
    rw [show ([1000 + 1 / 2 ^ 43, (1000 : ℝ)]).length = 2 from rfl, Finset.sum_range_succ,
      Finset.sum_range_one]
    norm_num [List.getD_cons_succ, List.getD_cons_zero]
  exact ⟨heval, by rw [heval]; norm_num⟩

end Pychebfun
